import Mathlib

/-
Verification of the MCTS optimization-engine core (rr.opt.mcts).

This file is a shallow embedding, in Lean 4, of the core data structures and
operations of the `rr.opt.mcts` package:

  * `infeasible.py` : the `Infeasible` value domain and its comparison operators
    (including Python's reflected-operator resolution for mixed comparisons);
  * `solution.py`   : `Solution`, the sentinel solutions, and `SolutionTracker`
    with `update` and `refresh`;
  * `stats.py`      : per-node `Stats` with origin-tagged `update` and full `refresh`;
  * `expansion.py`  : the lazy `Expansion` object with `start`/`next`;
  * `tree.py`       : `TreeNode` linking, `expand`, `bound`, `prune` and `delete`,
    modelled over an arena store of nodes addressed by natural-number ids;
  * `solver.py`     : the finalization of `Solver.run`.

Python floats are modelled by rationals extended with plus and minus infinity
(`ExtQ`).  Python object identity on `Solution` objects is modelled by a
numeric identity tag `sid` carried by each solution; the two module-level
sentinel objects get the reserved tags 0 and 1.  Mutation is modelled by
explicit state passing, and `assert`/`raise` by `Except String`.
-/

/-- Rationals extended with plus and minus infinity; the model of Python floats
(the engine uses `float("inf")` as a sentinel value). -/
inductive ExtQ : Type
  | negInf : ExtQ
  | fin : ℚ → ExtQ
  | posInf : ExtQ
deriving DecidableEq

namespace ExtQ

/-- Strict order on extended rationals, as on Python floats (no NaN). -/
def ltB : ExtQ → ExtQ → Bool
  | negInf, negInf => false
  | negInf, _ => true
  | fin _, negInf => false
  | fin a, fin b => decide (a < b)
  | fin _, posInf => true
  | posInf, _ => false

/-- Non-strict order on extended rationals. -/
def leB : ExtQ → ExtQ → Bool
  | negInf, _ => true
  | fin _, negInf => false
  | fin a, fin b => decide (a ≤ b)
  | fin _, posInf => true
  | posInf, posInf => true
  | posInf, _ => false

theorem leB_of_not_ltBE {a b : ExtQ} (h : ltB a b = false) : leB b a = true := by
  cases a <;> cases b <;> simp_all [ltB, leB]

theorem ltB_of_not_leB {a b : ExtQ} (h : leB a b = false) : ltB b a = true := by
  cases a <;> cases b <;> simp_all [ltB, leB]

theorem not_ltB_of_leBE {a b : ExtQ} (h : leB a b = true) : ltB b a = false := by
  cases a <;> cases b <;> simp_all [ltB, leB]

end ExtQ

/-- Objective values as seen by the engine: either a plain number (a feasible
objective value) or an `Infeasible` sentinel carrying a `violation` magnitude
(`infeasible.py`).  `Val.infeasible v` stands for the Python object
`Infeasible(violation=v)`. -/
inductive Val : Type
  | real : ExtQ → Val
  | infeasible : ExtQ → Val
deriving DecidableEq

namespace Val

/-- Python `==` between engine values.  `Infeasible.__eq__` declares an
`Infeasible` equal only to an `Infeasible` of equal violation; two floats
compare as numbers. -/
def eqB : Val → Val → Bool
  | real a, real b => decide (a = b)
  | infeasible a, infeasible b => decide (a = b)
  | _, _ => false

/-- Python `!=` between engine values (`Infeasible.__ne__`). -/
def neB (a b : Val) : Bool := !eqB a b

/-- Python `<` between engine values.  A float compared with an `Infeasible`
resolves through the reflected operator `Infeasible.__gt__`, which returns
true for every non-Infeasible argument; so every float is `<` every
`Infeasible`, and `Infeasible < float` is false (`Infeasible.__lt__`). -/
def ltB : Val → Val → Bool
  | real a, real b => ExtQ.ltB a b
  | real _, infeasible _ => true
  | infeasible _, real _ => false
  | infeasible a, infeasible b => ExtQ.ltB a b

/-- Python `<=` between engine values (`Infeasible.__le__` plus reflection). -/
def leB : Val → Val → Bool
  | real a, real b => ExtQ.leB a b
  | real _, infeasible _ => true
  | infeasible _, real _ => false
  | infeasible a, infeasible b => ExtQ.leB a b

/-- Python `>` between engine values (`Infeasible.__gt__` plus reflection). -/
def gtB : Val → Val → Bool
  | real a, real b => ExtQ.ltB b a
  | real _, infeasible _ => false
  | infeasible _, real _ => true
  | infeasible a, infeasible b => ExtQ.ltB b a

/-- Python `>=` between engine values (`Infeasible.__ge__` plus reflection). -/
def geB : Val → Val → Bool
  | real a, real b => ExtQ.leB b a
  | real _, infeasible _ => false
  | infeasible _, real _ => true
  | infeasible a, infeasible b => ExtQ.leB b a

/-- A value is feasible iff it is not an `Infeasible` object
(`Solution.is_feas` in `solution.py`). -/
def isFeas : Val → Bool
  | real _ => true
  | infeasible _ => false

theorem leB_of_not_ltB {a b : Val} (h : ltB a b = false) : leB b a = true := by
  cases a <;> cases b <;> simp_all [ltB, leB] <;> exact ExtQ.leB_of_not_ltBE h

theorem ltB_of_not_geB {a b : Val} (h : geB a b = false) : ltB a b = true := by
  cases a <;> cases b <;> simp_all [ltB, geB] <;> exact ExtQ.ltB_of_not_leB h

theorem not_ltB_of_leB {a b : Val} (h : leB a b = true) : ltB b a = false := by
  cases a <;> cases b <;> simp_all [ltB, leB] <;> exact ExtQ.not_ltB_of_leBE h

end Val

/-- A solution object (`solution.py`): an objective value plus the mutable
`is_opt` flag.  The field `sid` models Python object identity (`is`): distinct
solution objects carry distinct tags, and the module-level sentinel objects
`SolutionTracker.INIT_BEST` / `INIT_WORST` use the reserved tags 0 and 1.
The opaque `data` payload plays no role in the claims and is omitted. -/
structure Solution where
  sid : Nat
  value : Val
  isOpt : Bool := false
deriving DecidableEq

/-- Feasibility flag of a solution, determined by its value
(`self.is_feas = not isinstance(value, Infeasible)`). -/
def Solution.isFeas (s : Solution) : Bool := s.value.isFeas

/-- The sentinel initial best solution `Solution(value=Infeasible(+INF))`. -/
def INIT_BEST : Solution := ⟨0, Val.infeasible ExtQ.posInf, false⟩

/-- The sentinel initial worst solution `Solution(value=-INF)`. -/
def INIT_WORST : Solution := ⟨1, Val.real ExtQ.negInf, false⟩

/-- A solution tracker (`solution.py`): count plus best and worst slots.  The
observer callback lists are part of the solver wiring and are not represented;
`update` and `refresh` below model exactly the slot and count mutations. -/
structure SolutionTracker where
  count : Nat
  best : Solution
  worst : Solution
deriving DecidableEq

namespace SolutionTracker

/-- A freshly constructed tracker (`SolutionTracker.__init__`). -/
def init : SolutionTracker := ⟨0, INIT_BEST, INIT_WORST⟩

/-- The tracker operation `update(sol)`: bump the count, displace `best` when
`sol.value < best.value` and `worst` when `sol.value > worst.value`. -/
def update (t : SolutionTracker) (sol : Solution) : SolutionTracker :=
  let t1 : SolutionTracker := { t with count := t.count + 1 }
  let t2 : SolutionTracker :=
    if Val.ltB sol.value t1.best.value then { t1 with best := sol } else t1
  if Val.gtB sol.value t2.worst.value then { t2 with worst := sol } else t2

/-- The fold inside `SolutionTracker.refresh`: recompute a best/worst pair
from a collection of solutions, starting from the sentinels. -/
def refreshFold (sols : List Solution) : Solution × Solution :=
  sols.foldl
    (fun bw sol =>
      (if Val.ltB sol.value bw.1.value then sol else bw.1,
       if Val.gtB sol.value bw.2.value then sol else bw.2))
    (INIT_BEST, INIT_WORST)

/-- The tracker operation `refresh(sols)`: recompute best/worst from `sols`
only (count untouched) and report whether either slot changed by identity
(`new_best is not old_best or new_worst is not old_worst`). -/
def refresh (t : SolutionTracker) (sols : List Solution) : SolutionTracker × Bool :=
  let bw := refreshFold sols
  ({ t with best := bw.1, worst := bw.2 },
   decide (bw.1 ≠ t.best) || decide (bw.2 ≠ t.worst))

end SolutionTracker

example : Val.gtB (Val.infeasible (ExtQ.fin 3)) (Val.real (ExtQ.fin 1000000000)) = true := by decide
example : Val.ltB (Val.real (ExtQ.fin 1000000000)) (Val.infeasible (ExtQ.fin 3)) = true := by decide
example : (SolutionTracker.init.update ⟨2, Val.real (ExtQ.fin 5), false⟩).best.sid = 2 := by decide
example :
    (SolutionTracker.init.update ⟨2, Val.real ExtQ.negInf, false⟩).worst = INIT_WORST := by decide

/-- Per-node statistics (`stats.py`): the list of solutions whose simulations
originated at this node (`self.sols`) plus the three trackers.  The back
reference to the node is implicit in the arena model. -/
structure Stats where
  sols : List Solution
  feas : SolutionTracker
  infeas : SolutionTracker
  overall : SolutionTracker
deriving DecidableEq

namespace Stats

/-- Fresh statistics for a newly created node (`Stats.__init__`). -/
def init : Stats := ⟨[], .init, .init, .init⟩

/-- The operation `Stats.update(sol, origin)`: append to `sols` when the
origin is this node, dispatch to `feas` or `infeas` by feasibility, and always
to `overall`. -/
def update (st : Stats) (sol : Solution) (isOrigin : Bool) : Stats :=
  let st1 : Stats := if isOrigin then { st with sols := st.sols ++ [sol] } else st
  let st2 : Stats :=
    if sol.isFeas then { st1 with feas := st1.feas.update sol }
    else { st1 with infeas := st1.infeas.update sol }
  { st2 with overall := st2.overall.update sol }

/-- The solution list fed to `feas.refresh` by `Stats.refresh`: both extrema
of every child's feasible tracker, then the node's own feasible solutions. -/
def feasPool (st : Stats) (childStats : List Stats) : List Solution :=
  (childStats.flatMap fun c => [c.feas.best, c.feas.worst]) ++ st.sols.filter Solution.isFeas

/-- The solution list fed to `infeas.refresh` by `Stats.refresh`. -/
def infeasPool (st : Stats) (childStats : List Stats) : List Solution :=
  (childStats.flatMap fun c => [c.infeas.best, c.infeas.worst]) ++
    st.sols.filter fun s => !s.isFeas

/-- The solution list fed to `overall.refresh` by `Stats.refresh`. -/
def overallPool (st : Stats) (childStats : List Stats) : List Solution :=
  (childStats.flatMap fun c => [c.overall.best, c.overall.worst]) ++ st.sols

/-- The operation `Stats.refresh()`, parameterized by the stats of the node's
current children: refresh all three trackers from the gathered pools (all
three refresh calls are evaluated, never short-circuited) and return whether
any tracker reported a change. -/
def refreshWith (st : Stats) (childStats : List Stats) : Stats × Bool :=
  let f := st.feas.refresh (st.feasPool childStats)
  let i := st.infeas.refresh (st.infeasPool childStats)
  let o := st.overall.refresh (st.overallPool childStats)
  ({ st with feas := f.1, infeas := i.1, overall := o.1 }, f.2 || i.2 || o.2)

end Stats

/-- The user-state contract consumed by the engine (`state.py`): `copy`,
`apply`, `actions` and the optional `bound`, over abstract state and action
types.  `bound` may in principle return any engine value. -/
structure Ctx (S A : Type) where
  copy : S → S
  applyA : S → A → S
  actions : S → List A
  bound : S → Val

/-- The lazy expansion object (`expansion.py`).  `nextAction = none` and
`remaining = []` stand for the `UNDEFINED` placeholders; `remaining` holds the
not-yet-buffered actions of the cached iterator. -/
structure Expansion (S A : Type) where
  state : S
  nextAction : Option A
  remaining : List A
  isStarted : Bool
  isFinished : Bool
deriving DecidableEq

namespace Expansion

/-- A fresh, unstarted expansion for a state (`Expansion.__init__`). -/
def mkNew (s : S) : Expansion S A :=
  ⟨s, none, [], false, false⟩

/-- The private helper `_advance`: buffer the next action from the remaining
iterator, or mark the expansion finished when it is exhausted. -/
def advance (e : Expansion S A) : Expansion S A :=
  match e.remaining with
  | a :: rest => { e with nextAction := some a, remaining := rest }
  | [] => { e with nextAction := none, remaining := [], isFinished := true }

/-- The operation `start()`: fails on a second call; otherwise caches the
actions iterator, sets `is_started` and buffers the first action. -/
def start (ctx : Ctx S A) (e : Expansion S A) : Except String (Expansion S A) :=
  if e.isStarted then .error "multiple attempts to start node expansion"
  else .ok (advance { e with remaining := ctx.actions e.state, isStarted := true })

/-- The operation `next()`: fails when not started or already finished;
otherwise returns the buffered action together with a child state obtained by
copying the parent state and applying the action, and advances the buffer.
The branch with no buffered action is unreachable from a started, unfinished
expansion (the buffered-action invariant below). -/
def next (ctx : Ctx S A) (e : Expansion S A) :
    Except String (A × S × Expansion S A) :=
  if !e.isStarted then .error "node expansion is not yet started"
  else if e.isFinished then .error "node expansion is already finished"
  else
    match e.nextAction with
    | some a => .ok (a, ctx.applyA (ctx.copy e.state) a, advance e)
    | none => .error "internal: no buffered action"

end Expansion

/-- The finalization of `Solver.run` (solver.py lines 97-107), as a function
of the solver state at loop exit: the overall tracker, the feasible tracker's
count, and whether the root is exhausted.  Returns `none` when no solution was
recorded; otherwise returns the overall best, whose `is_opt` flag is set when
the tree is exhausted and a feasible solution exists. -/
def runFinalize (overall : SolutionTracker) (feasCount : Nat) (rootExhausted : Bool) :
    Option Solution :=
  if overall.count = 0 then none
  else if rootExhausted then
    if feasCount = 0 then some overall.best
    else some { overall.best with isOpt := true }
  else some overall.best

/-- The data of one MCTS tree node (`NaryTreeNode` plus `TreeNode` in
`tree.py`): linkage fields, the optional state (released after expansion by
`expansion_finished`), the producing action, statistics, the expansion object
and the memoized bound.  Nodes are addressed by natural-number ids in an
arena `Store`; `parent`, `ancestors` and `root` hold ids. -/
structure NodeData (S A : Type) where
  parent : Option Nat
  children : List Nat
  ancestors : List Nat
  root : Nat
  depth : Nat
  state : Option S
  action : Option A
  stats : Stats
  expansion : Expansion S A
  cachedBound : Option Val
deriving DecidableEq

/-- An arena of tree nodes: an association list from ids to node data plus
the next fresh id.  This models the Python heap of `TreeNode` objects. -/
structure Store (S A : Type) where
  nodes : List (Nat × NodeData S A)
  nextId : Nat
deriving DecidableEq

namespace Store

/-- Look up a node by id. -/
def get? (st : Store S A) (i : Nat) : Option (NodeData S A) :=
  (st.nodes.find? fun kv => kv.1 = i).map fun kv => kv.2

/-- Overwrite the data of an existing id (in-place object mutation). -/
def set (st : Store S A) (i : Nat) (d : NodeData S A) : Store S A :=
  { st with nodes := st.nodes.map fun kv => if kv.1 = i then (i, d) else kv }

/-- Allocate a fresh node (Python object construction); returns the new id. -/
def alloc (st : Store S A) (d : NodeData S A) : Store S A × Nat :=
  ({ nodes := st.nodes ++ [(st.nextId, d)], nextId := st.nextId + 1 }, st.nextId)

/-- All ids of the store are below `nextId`; fresh ids never collide. -/
def KeysOk (st : Store S A) : Prop :=
  ∀ kv ∈ st.nodes, kv.1 < st.nextId

end Store

/-- A fresh `TreeNode(state, action)`: no linkage, fresh stats, an unstarted
expansion over the state, no cached bound.  The node is its own root
(`NaryTreeNode.__init__` sets `self.root = self`). -/
def newNodeData (s : S) (a : Option A) (selfId : Nat) : NodeData S A :=
  { parent := none, children := [], ancestors := [], root := selfId, depth := 0,
    state := some s, action := a, stats := Stats.init,
    expansion := Expansion.mkNew s, cachedBound := none }

/-- The operation `add_child(node)` of `NaryTreeNode`: reject a child that
has ancestors or children; append it to `children` and set its linkage. -/
def addChild (st : Store S A) (p c : Nat) : Except String (Store S A) :=
  match st.get? p, st.get? c with
  | some pd, some cd =>
    if cd.ancestors.length > 0 ∨ cd.children.length > 0 then
      .error "argument node cannot have ancestors or children"
    else
      .ok (((st.set p { pd with children := pd.children ++ [c] }).set c
        { cd with ancestors := p :: pd.ancestors, parent := some p,
                  root := pd.root, depth := pd.depth + 1 }))
  | _, _ => .error "missing node"

/-- The operation `remove_child(node)` of `NaryTreeNode`: reject a child with
a different parent; remove it from `children` (first occurrence, as
`list.remove`) and reset its linkage, making it its own root again. -/
def removeChild (st : Store S A) (p c : Nat) : Except String (Store S A) :=
  match st.get? p, st.get? c with
  | some pd, some cd =>
    if cd.parent = some p then
      if c ∈ pd.children then
        .ok ((st.set p { pd with children := pd.children.erase c }).set c
          { cd with ancestors := [], parent := none, root := c, depth := 0 })
      else .error "list remove: x not in list"
    else .error "argument node has a different parent"
  | _, _ => .error "missing node"

/-- The call `node.stats.refresh()` for the node at id `i`: gather the stats
of its current children from the store and refresh all three trackers. -/
def refreshNode (st : Store S A) (i : Nat) : Store S A × Bool :=
  match st.get? i with
  | none => (st, false)
  | some d =>
    let childStats := d.children.filterMap fun c => (st.get? c).map fun cd => cd.stats
    let r := d.stats.refreshWith childStats
    (st.set i { d with stats := r.1 }, r.2)

/-- The bottom-up ancestor refresh at the end of `delete()`: refresh each
ancestor in order and stop as soon as one refresh reports no change. -/
def refreshAncestors (st : Store S A) : List Nat → Store S A
  | [] => st
  | a :: rest =>
    if (refreshNode st a).2 then refreshAncestors (refreshNode st a).1 rest
    else (refreshNode st a).1

/-- The upward walk at the start of `delete()`: climb to the parent while it
exists, its expansion is finished, and the current node is its only child
(`parent.children == [current]`, which also discharges the
`parent.children[0] is node` assertion).  The fuel is the length of the
node's `ancestors` tuple, which bounds the climb in any coherent tree. -/
def deleteWalk (st : Store S A) : Nat → Nat → Nat
  | i, 0 => i
  | i, fuel + 1 =>
    match st.get? i with
    | none => i
    | some d =>
      match d.parent with
      | none => i
      | some p =>
        match st.get? p with
        | none => i
        | some pd =>
          if pd.expansion.isFinished ∧ pd.children = [i] then deleteWalk st p fuel
          else i

/-- The six-way assertion at the end of the root branch of `delete()`: all
three root trackers must be back at the initial sentinel objects. -/
def sentinelStats (s : Stats) : Prop :=
  s.feas.best = INIT_BEST ∧ s.feas.worst = INIT_WORST ∧
  s.infeas.best = INIT_BEST ∧ s.infeas.worst = INIT_WORST ∧
  s.overall.best = INIT_BEST ∧ s.overall.worst = INIT_WORST

instance (s : Stats) : Decidable (sentinelStats s) := by
  unfold sentinelStats; infer_instance

/-- The operation `TreeNode.delete()` (tree.py lines 234-286).  Walk upward
to the highest ancestor that would become exhausted, then either (root
reached) detach the root's remaining child, refresh the root's stats and
assert they are back at the sentinels, or (stopped short) detach the walk
target, assert its parent did not become exhausted, and refresh the captured
ancestors bottom-up with the short-circuit.  Assertion failures are
`Except.error`. -/
def delete (st : Store S A) (i : Nat) : Except String (Store S A) :=
  match st.get? i with
  | none => .error "missing node"
  | some d0 =>
    let n := deleteWalk st i d0.ancestors.length
    match st.get? n with
    | none => .error "missing node"
    | some nd =>
      match nd.parent with
      | none =>
        if n = d0.root ∧ nd.children.length < 2 then
          match nd.children with
          | [] =>
            let st2 := (refreshNode st n).1
            match st2.get? n with
            | none => .error "missing node"
            | some nd2 =>
              if sentinelStats nd2.stats then .ok st2
              else .error "assert failed: root trackers not back at sentinels"
          | c :: _ => do
            let st1 ← removeChild st n c
            let st2 := (refreshNode st1 n).1
            match st2.get? n with
            | none => .error "missing node"
            | some nd2 =>
              if sentinelStats nd2.stats then .ok st2
              else .error "assert failed: root trackers not back at sentinels"
        else .error "assert failed: node is root with fewer than two children"
      | some p => do
        let anc := nd.ancestors
        let st1 ← removeChild st p n
        match st1.get? p with
        | none => .error "missing node"
        | some pd1 =>
          if pd1.expansion.isFinished ∧ pd1.children = [] then
            .error "assert failed: parent became exhausted"
          else .ok (refreshAncestors st1 anc)

/-- The operation `TreeNode.bound()`: return the memoized bound, computing
`state.bound()` and caching it on first use.  Calling it on a node whose
state was released before any bound was cached is an error (in Python this
would be an attribute access on `None`). -/
def nodeBound (ctx : Ctx S A) (st : Store S A) (i : Nat) :
    Except String (Store S A × Val) :=
  match st.get? i with
  | none => .error "missing node"
  | some d =>
    match d.cachedBound with
    | some b => .ok (st, b)
    | none =>
      match d.state with
      | some s =>
        let b := ctx.bound s
        .ok (st.set i { d with cachedBound := some b }, b)
      | none => .error "state released without cached bound"

/-- The depth-first loop of `TreeNode.prune(cutoff)` with an explicit stack:
pop a node, delete it (with its whole subtree) when its bound reaches the
cutoff, and otherwise push its children.  The Python stack pops from the end;
the model keeps the next node to pop at the head, so pushed children are
reversed.  Recursion is fueled; exhausting the fuel is an error, which never
happens on a finite tree with enough fuel. -/
def pruneLoop (ctx : Ctx S A) (cutoff : Val) :
    Store S A → List Nat → Nat → Except String (Store S A)
  | _, _, 0 => .error "out of fuel"
  | st, [], _ + 1 => .ok st
  | st, i :: rest, fuel + 1 => do
    let r ← nodeBound ctx st i
    if Val.geB r.2 cutoff then
      let st2 ← delete r.1 i
      pruneLoop ctx cutoff st2 rest fuel
    else
      match r.1.get? i with
      | none => .error "missing node"
      | some d => pruneLoop ctx cutoff r.1 (d.children.reverse ++ rest) fuel

/-- The operation `TreeNode.prune(cutoff)` (tree.py lines 223-232), called on
the node at id `i`: assert the cutoff is not `Infeasible`, then run the
depth-first sweep. -/
def prune (ctx : Ctx S A) (st : Store S A) (i : Nat) (cutoff : Val) (fuel : Nat) :
    Except String (Store S A) :=
  match cutoff with
  | .infeasible _ => .error "assert failed: cutoff must not be Infeasible"
  | .real _ => pruneLoop ctx cutoff st [i] fuel

/-- The class parameter `TreeNode.EXPANSION_LIMIT` (default 1). -/
def EXPANSION_LIMIT : Nat := 1

/-- The expansion loop inside `TreeNode.expand` (tree.py lines 167-174), run
to completion: while the candidate budget lasts and the expansion is not
finished, draw an `(action, state)` pair, build a fresh child node, read the
cutoff from the root's overall tracker, and either link and yield the child
(no pruning, Infeasible cutoff, or bound below cutoff) or drop it unlinked.
Every drawn candidate consumes budget, linked or not.  Returns the store and
the linked (yielded) children in order. -/
def expandLoop (ctx : Ctx S A) (pruning : Bool) (selfId rootId : Nat) :
    Store S A → Nat → List Nat → Except String (Store S A × List Nat)
  | st, 0, acc => .ok (st, acc)
  | st, budget + 1, acc =>
    match st.get? selfId with
    | none => .error "missing node"
    | some d =>
      if d.expansion.isFinished then .ok (st, acc)
      else do
        let r ← Expansion.next ctx d.expansion
        let st1 := st.set selfId { d with expansion := r.2.2 }
        let ac := st1.alloc (newNodeData r.2.1 (some r.1) st1.nextId)
        match ac.1.get? rootId with
        | none => .error "missing root node"
        | some rd =>
          let cutoff := rd.stats.overall.best.value
          if !pruning then do
            let st3 ← addChild ac.1 selfId ac.2
            expandLoop ctx pruning selfId rootId st3 budget (acc ++ [ac.2])
          else
            match cutoff with
            | .infeasible _ => do
              let st3 ← addChild ac.1 selfId ac.2
              expandLoop ctx pruning selfId rootId st3 budget (acc ++ [ac.2])
            | .real _ => do
              let rb ← nodeBound ctx ac.1 ac.2
              if Val.ltB rb.2 cutoff then do
                let st3 ← addChild rb.1 selfId ac.2
                expandLoop ctx pruning selfId rootId st3 budget (acc ++ [ac.2])
              else
                expandLoop ctx pruning selfId rootId rb.1 budget acc

/-- The part of `TreeNode.expand(pruning)` after the expansion has been
started (tree.py lines 163-187): run the candidate loop with the given
budget, and afterwards, if the expansion finished, either delete the
now-exhausted childless node or run `expansion_finished` (cache the bound,
then release the state reference). -/
def expandFinish (ctx : Ctx S A) (pruning : Bool) (selfId : Nat)
    (st1 : Store S A) (limit : Nat) : Except String (Store S A × List Nat) :=
  match st1.get? selfId with
  | none => .error "missing node"
  | some d1 => do
    let r ← expandLoop ctx pruning selfId d1.root st1 limit []
    match r.1.get? selfId with
    | none => .error "missing node"
    | some d2 =>
      if d2.expansion.isFinished then
        if d2.children.length = 0 then do
          let st3 ← delete r.1 selfId
          Except.ok (st3, r.2)
        else do
          let rb ← nodeBound ctx r.1 selfId
          match rb.1.get? selfId with
          | none => .error "missing node"
          | some d3 => Except.ok (rb.1.set selfId { d3 with state := none }, r.2)
      else Except.ok (r.1, r.2)

/-- The operation `TreeNode.expand(pruning)` (tree.py lines 149-187), with
the generator consumed to the end as the solver does: start the expansion on
first use (asserting the node is childless), then run `expandFinish` with
budget `limit = EXPANSION_LIMIT`. -/
def expand (ctx : Ctx S A) (pruning : Bool) (selfId : Nat) (st : Store S A)
    (limit : Nat) : Except String (Store S A × List Nat) :=
  match st.get? selfId with
  | none => .error "missing node"
  | some d0 => do
    let st1 ←
      if d0.expansion.isStarted then Except.ok st
      else
        if d0.children.length = 0 then do
          let e ← Expansion.start ctx d0.expansion
          Except.ok (st.set selfId { d0 with expansion := e })
        else Except.error "assert failed: expansion not started but node has children"
    expandFinish ctx pruning selfId st1 limit

/-- The verified-parent step of a node: its parent id, provided the parent
exists in the store and lists the node among its children.  In any tree built
by the linking API this is exactly the parent reference; it is `none` for a
root or a detached node. -/
def vparent (st : Store S A) (x : Nat) : Option Nat :=
  match st.get? x with
  | none => none
  | some d =>
    match d.parent with
    | none => none
    | some p =>
      match st.get? p with
      | none => none
      | some pd => if x ∈ pd.children then some p else none

/-- Iterate the verified-parent step `k` times. -/
def vpIter (st : Store S A) : Nat → Nat → Option Nat
  | 0, x => some x
  | k + 1, x =>
    match vparent st x with
    | some p => vpIter st k p
    | none => none

/-- Node `j` lies on the upward parent chain of node `x` (including `x`
itself).  `onChain st x r` with `r` the root id says `x` is attached to the
tree rooted at `r`. -/
def onChain (st : Store S A) (x j : Nat) : Prop :=
  ∃ k, vpIter st k x = some j

/-- The root id `r` is present and has no parent (true of the solver's root
throughout; `remove_child` only ever clears parent fields). -/
def RootOk (st : Store S A) (r : Nat) : Prop :=
  ∃ rd, st.get? r = some rd ∧ rd.parent = none

/-- A node has passed the prune check: its memoized bound is strictly below
the cutoff. -/
def Passed (st : Store S A) (cutoff : Val) (x : Nat) : Prop :=
  ∃ d b, st.get? x = some d ∧ d.cachedBound = some b ∧ Val.ltB b cutoff = true

theorem vpIter_zero (st : Store S A) (x : Nat) : vpIter st 0 x = some x := rfl

theorem vpIter_succ (st : Store S A) (k x : Nat) :
    vpIter st (k + 1) x = (vparent st x).bind (vpIter st k) := by
  show (match vparent st x with
        | some p => vpIter st k p
        | none => none) = _
  cases vparent st x <;> rfl

theorem vpIter_add (st : Store S A) (k m x : Nat) :
    vpIter st (k + m) x = (vpIter st k x).bind (vpIter st m) := by
  induction k generalizing x with
  | zero => simp [vpIter_zero]
  | succ k ih =>
    have hc : k + 1 + m = (k + m) + 1 := by omega
    rw [hc, vpIter_succ, vpIter_succ]
    cases h : vparent st x with
    | none => simp
    | some p => simp [ih p]

theorem vparent_none_of_parent_none {st : Store S A} {x : Nat} {d : NodeData S A}
    (hg : st.get? x = some d) (hp : d.parent = none) : vparent st x = none := by
  simp [vparent, hg, hp]

theorem vpIter_none_succ {st : Store S A} {r : Nat} (h : vparent st r = none)
    (m : Nat) : vpIter st (m + 1) r = none := by
  rw [vpIter_succ, h]; rfl

/-- On a store whose verified-parent map agrees with the old one wherever it
is defined, a chain that survives is step-for-step the old chain. -/
theorem vpIter_agree {st st' : Store S A}
    (hag : ∀ y, vparent st' y = vparent st y ∨ vparent st' y = none)
    {k : Nat} {x r : Nat} (h : vpIter st' k x = some r) :
    ∀ m, m ≤ k → vpIter st' m x = vpIter st m x := by
  induction k generalizing x with
  | zero =>
    intro m hm; interval_cases m; rfl
  | succ k ih =>
    intro m hm
    rw [vpIter_succ] at h
    cases hv : vparent st' x with
    | none => rw [hv] at h; exact absurd h (by simp)
    | some p =>
      rw [hv, Option.some_bind] at h
      have hveq : vparent st x = some p := by
        rcases hag x with he | hn
        · rw [← he, hv]
        · rw [hn] at hv; exact absurd hv (by simp)
      match m with
      | 0 => rfl
      | m + 1 =>
        rw [vpIter_succ, vpIter_succ, hv, hveq, Option.some_bind, Option.some_bind]
        exact ih h m (Nat.le_of_succ_le_succ hm)

/-- Transfer of chain membership to the new store: if `x` is still attached
to the parentless root `r` in the new store and `j` was on its chain in the
old store, then `j` is still on its chain in the new store. -/
theorem onChain_transfer {st st' : Store S A}
    (hag : ∀ y, vparent st' y = vparent st y ∨ vparent st' y = none)
    {r : Nat} (hr : vparent st r = none)
    {x j : Nat} {k : Nat} (hx : vpIter st' k x = some r)
    {k1 : Nat} (hj : vpIter st k1 x = some j) :
    k1 ≤ k ∧ vpIter st' k1 x = some j := by
  have hagree := vpIter_agree hag hx
  have hxk : vpIter st k x = some r := by rw [← hagree k (le_refl k)]; exact hx
  by_cases hle : k1 ≤ k
  · refine ⟨hle, ?_⟩
    rw [hagree k1 hle]; exact hj
  · exfalso
    push_neg at hle
    obtain ⟨m, hm⟩ : ∃ m, k1 = k + (m + 1) := by
      refine ⟨k1 - k - 1, ?_⟩; omega
    rw [hm, vpIter_add, hxk, Option.some_bind, vpIter_none_succ hr] at hj
    exact absurd hj (by simp)

/-- Decompose a nonempty chain at its last step: the predecessor of the
endpoint. -/
theorem vpIter_last_step {st : Store S A} {k x j : Nat}
    (h : vpIter st (k + 1) x = some j) :
    ∃ y, vpIter st k x = some y ∧ vparent st y = some j := by
  induction k generalizing x with
  | zero =>
    rw [vpIter_succ] at h
    cases hv : vparent st x with
    | none => rw [hv] at h; exact absurd h (by simp)
    | some p =>
      rw [hv, Option.some_bind, vpIter_zero] at h
      exact ⟨x, rfl, by rw [hv]; exact h⟩
  | succ k ih =>
    rw [vpIter_succ] at h
    cases hv : vparent st x with
    | none => rw [hv] at h; exact absurd h (by simp)
    | some p =>
      rw [hv, Option.some_bind] at h
      obtain ⟨y, hy, hvy⟩ := ih h
      exact ⟨y, by rw [vpIter_succ, hv, Option.some_bind]; exact hy, hvy⟩

theorem ExtQ.leB_reflE (a : ExtQ) : ExtQ.leB a a = true := by
  cases a <;> simp [ExtQ.leB]

theorem ExtQ.leB_transE {a b c : ExtQ} (h1 : ExtQ.leB a b = true)
    (h2 : ExtQ.leB b c = true) : ExtQ.leB a c = true := by
  cases a <;> cases b <;> cases c <;> simp_all [ExtQ.leB] <;> linarith

theorem ExtQ.leB_of_ltBE {a b : ExtQ} (h : ExtQ.ltB a b = true) :
    ExtQ.leB a b = true := by
  cases a <;> cases b <;> simp_all [ExtQ.ltB, ExtQ.leB] <;> linarith

theorem Val.leB_refl (a : Val) : Val.leB a a = true := by
  cases a <;> simp [Val.leB, ExtQ.leB_reflE]

theorem Val.leB_trans {a b c : Val} (h1 : Val.leB a b = true)
    (h2 : Val.leB b c = true) : Val.leB a c = true := by
  cases a <;> cases b <;> cases c <;> simp_all [Val.leB] <;>
    exact ExtQ.leB_transE h1 h2

theorem Val.leB_of_ltB {a b : Val} (h : Val.ltB a b = true) :
    Val.leB a b = true := by
  cases a <;> cases b <;> simp_all [Val.ltB, Val.leB] <;> exact ExtQ.leB_of_ltBE h

theorem Val.gtB_eq_ltB (a b : Val) : Val.gtB a b = Val.ltB b a := by
  cases a <;> cases b <;> rfl

theorem Val.geB_eq_leB (a b : Val) : Val.geB a b = Val.leB b a := by
  cases a <;> cases b <;> rfl

namespace SolutionTracker

/-- Behaviour of the best/worst recomputation fold of `refresh`, for an
arbitrary starting pair: the final best is the start or a list element, is
minimal among the list elements by value, and is no larger than the start
value; symmetrically for the worst. -/
theorem refreshFold_go (sols : List Solution) (b0 w0 : Solution) :
    let bw := sols.foldl
      (fun bw sol =>
        (if Val.ltB sol.value bw.1.value then sol else bw.1,
         if Val.gtB sol.value bw.2.value then sol else bw.2))
      (b0, w0)
    (bw.1 = b0 ∨ bw.1 ∈ sols) ∧ Val.leB bw.1.value b0.value = true ∧
      (∀ s ∈ sols, Val.leB bw.1.value s.value = true) ∧
      (bw.2 = w0 ∨ bw.2 ∈ sols) ∧ Val.leB w0.value bw.2.value = true ∧
      (∀ s ∈ sols, Val.leB s.value bw.2.value = true) := by
  induction sols generalizing b0 w0 with
  | nil =>
    exact ⟨Or.inl rfl, Val.leB_refl _, by simp, Or.inl rfl, Val.leB_refl _, by simp⟩
  | cons s rest ih =>
    simp only [List.foldl_cons]
    set b1 := if Val.ltB s.value b0.value then s else b0 with hb1
    set w1 := if Val.gtB s.value w0.value then s else w0 with hw1
    obtain ⟨m1, m2, m3, m4, m5, m6⟩ := ih b1 w1
    have hb1le : Val.leB b1.value b0.value = true := by
      rw [hb1]; split
      · next hlt => exact Val.leB_of_ltB hlt
      · exact Val.leB_refl _
    have hb1s : Val.leB b1.value s.value = true := by
      rw [hb1]; split
      · exact Val.leB_refl _
      · next hlt => exact Val.leB_of_not_ltB (by simpa using hlt)
    have hw1ge : Val.leB w0.value w1.value = true := by
      rw [hw1]; split
      · next hgt =>
        rw [Val.gtB_eq_ltB] at hgt
        exact Val.leB_of_ltB hgt
      · exact Val.leB_refl _
    have hw1s : Val.leB s.value w1.value = true := by
      rw [hw1]; split
      · exact Val.leB_refl _
      · next hgt =>
        rw [Val.gtB_eq_ltB] at hgt
        exact Val.leB_of_not_ltB (by simpa using hgt)
    refine ⟨?_, ?_, ?_, ?_, ?_, ?_⟩
    · rcases m1 with h | h
      · rw [h, hb1]; split
        · exact Or.inr (List.mem_cons_self s rest)
        · exact Or.inl rfl
      · exact Or.inr (List.mem_cons_of_mem s h)
    · exact Val.leB_trans m2 hb1le
    · intro t ht
      rcases List.mem_cons.mp ht with rfl | ht
      · exact Val.leB_trans m2 hb1s
      · exact m3 t ht
    · rcases m4 with h | h
      · rw [h, hw1]; split
        · exact Or.inr (List.mem_cons_self s rest)
        · exact Or.inl rfl
      · exact Or.inr (List.mem_cons_of_mem s h)
    · exact Val.leB_trans hw1ge m5
    · intro t ht
      rcases List.mem_cons.mp ht with rfl | ht
      · exact Val.leB_trans hw1s m5
      · exact m6 t ht

end SolutionTracker

theorem SolutionTracker.refresh_idem (t : SolutionTracker) (sols : List Solution) :
    (t.refresh sols).1.refresh sols = ((t.refresh sols).1, false) := by
  unfold SolutionTracker.refresh
  simp

/-- C2: For every Infeasible I and every non-Infeasible value r (in particular
every real number): I > r, I >= r, r < I, and I != r hold while I == r, I < r,
I <= r do not; for all Infeasibles I1 and I2: I1 < I2 iff I1.violation <
I2.violation, and I1 == I2 iff I1.violation == I2.violation; this equality is
symmetric and transitive. -/
theorem claim_C2_infeasible_ordering (v r v1 v2 : ExtQ) (a b c : Val) :
    Val.gtB (Val.infeasible v) (Val.real r) = true ∧
    Val.geB (Val.infeasible v) (Val.real r) = true ∧
    Val.ltB (Val.real r) (Val.infeasible v) = true ∧
    Val.neB (Val.infeasible v) (Val.real r) = true ∧
    Val.eqB (Val.infeasible v) (Val.real r) = false ∧
    Val.ltB (Val.infeasible v) (Val.real r) = false ∧
    Val.leB (Val.infeasible v) (Val.real r) = false ∧
    Val.ltB (Val.infeasible v1) (Val.infeasible v2) = ExtQ.ltB v1 v2 ∧
    (Val.eqB (Val.infeasible v1) (Val.infeasible v2) = true ↔ v1 = v2) ∧
    Val.eqB a b = Val.eqB b a ∧
    (Val.eqB a b = true → Val.eqB b c = true → Val.eqB a c = true) := by
  refine ⟨rfl, rfl, rfl, rfl, rfl, rfl, rfl, rfl, by simp [Val.eqB], ?_, ?_⟩
  · cases a <;> cases b <;> simp [Val.eqB, eq_comm]
  · intro h1 h2
    cases a <;> cases b <;> cases c <;> simp_all [Val.eqB]

/-- C2 witness: the S4 scenario, `r = 1e9 < Infeasible(3) < Infeasible(7)`,
`Infeasible(3) != r`, and `Infeasible(3) == Infeasible(3)` via transitivity. -/
theorem claim_C2_witness :
    Val.ltB (Val.real (ExtQ.fin 1000000000)) (Val.infeasible (ExtQ.fin 3)) = true ∧
    Val.ltB (Val.infeasible (ExtQ.fin 3)) (Val.infeasible (ExtQ.fin 7)) = true ∧
    Val.neB (Val.infeasible (ExtQ.fin 3)) (Val.real (ExtQ.fin 1000000000)) = true ∧
    Val.eqB (Val.infeasible (ExtQ.fin 3)) (Val.infeasible (ExtQ.fin 3)) = true := by
  obtain ⟨h1, h2, h3, h4, h5, h6, h7, h8, h9, h10, h11⟩ :=
    claim_C2_infeasible_ordering (ExtQ.fin 3) (ExtQ.fin 1000000000)
      (ExtQ.fin 3) (ExtQ.fin 7)
      (Val.infeasible (ExtQ.fin 3)) (Val.infeasible (ExtQ.fin 3))
      (Val.infeasible (ExtQ.fin 3))
  exact ⟨h3, h8.trans (by decide), h4, h11 (by decide) (by decide)⟩

/-- C6 counterexample: for `sols = [Solution(Infeasible(+INF))]` the claim as
stated fails: `sols` is nonempty, its (unique, hence minimum-by-value) element
is the listed solution, yet `refresh` does not install any element of `sols`
into the best slot: the strict comparison `Infeasible(inf) < Infeasible(inf)`
is false, so the initial sentinel object (a different object) survives. -/
theorem claim_C6_counterexample :
    (SolutionTracker.init.refresh [⟨2, Val.infeasible ExtQ.posInf, false⟩]).1.best ∉
      [(⟨2, Val.infeasible ExtQ.posInf, false⟩ : Solution)] ∧
    [(⟨2, Val.infeasible ExtQ.posInf, false⟩ : Solution)] ≠ [] := by decide

/-- C6 as amended: `refresh(sols)` leaves the count unchanged; the new best is
an element of `sols` minimal by value, or the initial sentinel (necessarily so
when `sols` is empty, and only kept when no element is strictly below the
sentinel value `Infeasible(+INF)`); symmetrically for the worst; the returned
flag is true iff the object in the best or the worst slot changed identity. -/
theorem claim_C6_refresh_spec (t : SolutionTracker) (sols : List Solution) :
    (t.refresh sols).1.count = t.count ∧
    ((t.refresh sols).1.best = INIT_BEST ∨ (t.refresh sols).1.best ∈ sols) ∧
    (∀ s ∈ sols, Val.leB (t.refresh sols).1.best.value s.value = true) ∧
    ((t.refresh sols).1.worst = INIT_WORST ∨ (t.refresh sols).1.worst ∈ sols) ∧
    (∀ s ∈ sols, Val.leB s.value (t.refresh sols).1.worst.value = true) ∧
    ((t.refresh sols).2 = true ↔
      ((t.refresh sols).1.best ≠ t.best ∨ (t.refresh sols).1.worst ≠ t.worst)) := by
  obtain ⟨m1, _, m3, m4, _, m6⟩ := SolutionTracker.refreshFold_go sols INIT_BEST INIT_WORST
  refine ⟨rfl, m1, m3, m4, m6, ?_⟩
  simp [SolutionTracker.refresh]

/-- C6 witness: refreshing a fresh tracker from one real-valued solution
installs it as best (and the flag reports a change). -/
theorem claim_C6_witness :
    Val.leB
      (SolutionTracker.init.refresh [⟨2, Val.real (ExtQ.fin 5), false⟩]).1.best.value
      (Val.real (ExtQ.fin 5)) = true ∧
    (SolutionTracker.init.refresh [⟨2, Val.real (ExtQ.fin 5), false⟩]).1.best ∈
      [(⟨2, Val.real (ExtQ.fin 5), false⟩ : Solution)] ∧
    (SolutionTracker.init.refresh [⟨2, Val.real (ExtQ.fin 5), false⟩]).2 = true := by
  obtain ⟨h1, h2, h3, h4, h5, h6⟩ :=
    claim_C6_refresh_spec SolutionTracker.init [⟨2, Val.real (ExtQ.fin 5), false⟩]
  refine ⟨h3 ⟨2, Val.real (ExtQ.fin 5), false⟩ (by decide),
    h2.resolve_left (by decide), h6.mpr (Or.inl (by decide))⟩

/-- C7 counterexample: the first update with `Solution(-inf)` does not
displace the initial worst sentinel (the strict comparison `-inf > -inf`
fails), so not every solution displaces both sentinels as the claim states. -/
theorem claim_C7_counterexample :
    (SolutionTracker.init.update ⟨2, Val.real ExtQ.negInf, false⟩).worst = INIT_WORST ∧
    (⟨2, Val.real ExtQ.negInf, false⟩ : Solution) ≠ INIT_WORST := by decide

/-- C7 as amended: on a freshly constructed tracker, the first `update(sol)`
makes `sol` both the best and the worst, provided `sol.value` is strictly
below the best sentinel value `Infeasible(+INF)` and strictly above the worst
sentinel value `-INF` (every solution except those two boundary values). -/
theorem claim_C7_first_update (s : Solution)
    (hb : Val.ltB s.value INIT_BEST.value = true)
    (hw : Val.gtB s.value INIT_WORST.value = true) :
    (SolutionTracker.init.update s).best = s ∧
    (SolutionTracker.init.update s).worst = s ∧
    (SolutionTracker.init.update s).count = 1 := by
  unfold SolutionTracker.update SolutionTracker.init
  simp [hb, hw]

/-- C7 witness: a first update with the real value 5 displaces both
sentinels. -/
theorem claim_C7_witness :
    (SolutionTracker.init.update ⟨2, Val.real (ExtQ.fin 5), false⟩).best =
      ⟨2, Val.real (ExtQ.fin 5), false⟩ ∧
    (SolutionTracker.init.update ⟨2, Val.real (ExtQ.fin 5), false⟩).worst =
      ⟨2, Val.real (ExtQ.fin 5), false⟩ ∧
    (SolutionTracker.init.update ⟨2, Val.real (ExtQ.fin 5), false⟩).count = 1 :=
  claim_C7_first_update ⟨2, Val.real (ExtQ.fin 5), false⟩ (by decide) (by decide)

/-- C9: `Stats.refresh` is idempotent: with the node's children, own
solutions and trackers unchanged in between, a second `refresh` changes
nothing and returns false; moreover a refresh always applies all three
per-tracker refreshes (feas, infeas, overall), whatever the individual
change reports are. -/
theorem claim_C9_stats_refresh_idempotent (st : Stats) (cs : List Stats) :
    (st.refreshWith cs).1.refreshWith cs = ((st.refreshWith cs).1, false) ∧
    (st.refreshWith cs).1.feas = (st.feas.refresh (st.feasPool cs)).1 ∧
    (st.refreshWith cs).1.infeas = (st.infeas.refresh (st.infeasPool cs)).1 ∧
    (st.refreshWith cs).1.overall = (st.overall.refresh (st.overallPool cs)).1 := by
  obtain ⟨sols, f0, i0, o0⟩ := st
  refine ⟨?_, rfl, rfl, rfl⟩
  simp [Stats.refreshWith, Stats.feasPool, Stats.infeasPool, Stats.overallPool,
    SolutionTracker.refresh_idem]

/-- C1: the finalization of `Solver.run`: a null result exactly when the
overall tracker saw no solutions; otherwise the result is the overall best,
and its `is_opt` flag ends true only when the root is exhausted at loop exit
and the feasible tracker recorded at least one solution (or the flag had
already been set before). -/
theorem claim_C1_run_result (overall : SolutionTracker) (feasCount : Nat)
    (rootExhausted : Bool) :
    (overall.count = 0 → runFinalize overall feasCount rootExhausted = none) ∧
    (overall.count ≠ 0 →
      ∃ s, runFinalize overall feasCount rootExhausted = some s ∧
        s.sid = overall.best.sid ∧ s.value = overall.best.value ∧
        (s.isOpt = true ↔
          ((rootExhausted = true ∧ 0 < feasCount) ∨ overall.best.isOpt = true))) := by
  constructor
  · intro h; simp [runFinalize, h]
  · intro h
    unfold runFinalize
    rw [if_neg h]
    cases rootExhausted with
    | false =>
      exact ⟨overall.best, rfl, rfl, rfl, by simp⟩
    | true =>
      by_cases hf : feasCount = 0
      · rw [if_pos rfl, if_pos hf]
        exact ⟨overall.best, rfl, rfl, rfl, by simp [hf]⟩
      · rw [if_pos rfl, if_neg hf]
        exact ⟨{ overall.best with isOpt := true }, rfl, rfl, rfl, by
          simp; omega⟩

/-- C1 witness: a run that recorded three solutions, one feasible, with the
root exhausted, returns the overall best marked optimal. -/
theorem claim_C1_witness :
    ∃ s, runFinalize ⟨3, ⟨2, Val.real (ExtQ.fin 5), false⟩, ⟨3, Val.real (ExtQ.fin 9), false⟩⟩
        1 true = some s ∧ s.isOpt = true := by
  obtain ⟨_, h2⟩ := claim_C1_run_result
    ⟨3, ⟨2, Val.real (ExtQ.fin 5), false⟩, ⟨3, Val.real (ExtQ.fin 9), false⟩⟩ 1 true
  obtain ⟨s, hs, _, _, hiff⟩ := h2 (by decide)
  exact ⟨s, hs, hiff.mpr (Or.inl ⟨rfl, by decide⟩)⟩

theorem Expansion.advance_isStarted (e : Expansion S A) :
    e.advance.isStarted = e.isStarted := by
  unfold Expansion.advance
  cases e.remaining <;> rfl

/-- C8: `Expansion.start()` raises a usage error on an already started
expansion and `next()` raises when unstarted or finished; a successful
`start()` on a fresh expansion marks it started with exactly one buffered
action unless the action list was empty (then it is finished at once); a
`next()` on a started, unfinished expansion returns the buffered action
paired with the child state obtained by copying the parent state and applying
that action, and advances the buffer, keeping one action buffered or setting
`is_finished` when the remaining actions run out. -/
theorem claim_C8_expansion_protocol (ctx : Ctx S A) (e : Expansion S A) :
    (e.isStarted = true →
      Expansion.start ctx e = .error "multiple attempts to start node expansion") ∧
    (e.isStarted = false →
      Expansion.next ctx e = .error "node expansion is not yet started") ∧
    (e.isStarted = true → e.isFinished = true →
      Expansion.next ctx e = .error "node expansion is already finished") ∧
    (e.isStarted = false → e.isFinished = false →
      ∃ e2, Expansion.start ctx e = .ok e2 ∧ e2.isStarted = true ∧
        (e2.isFinished = false → ∃ a, e2.nextAction = some a) ∧
        (e2.isFinished = true ↔ ctx.actions e.state = [])) ∧
    (e.isStarted = true → e.isFinished = false → ∀ a, e.nextAction = some a →
      Expansion.next ctx e = .ok (a, ctx.applyA (ctx.copy e.state) a, e.advance) ∧
        (e.advance.isFinished = false → ∃ b, e.advance.nextAction = some b) ∧
        (e.advance.isFinished = true ↔ e.remaining = [])) := by
  refine ⟨?_, ?_, ?_, ?_, ?_⟩
  · intro h; simp [Expansion.start, h]
  · intro h; simp [Expansion.next, h]
  · intro h1 h2; simp [Expansion.next, h1, h2]
  · intro h1 h2
    refine ⟨Expansion.advance { e with remaining := ctx.actions e.state, isStarted := true },
      by simp [Expansion.start, h1], ?_, ?_, ?_⟩
    · rw [Expansion.advance_isStarted]
    · intro hf
      unfold Expansion.advance at hf ⊢
      cases hr : ctx.actions e.state with
      | nil => simp [hr] at hf
      | cons a rest => exact ⟨a, by simp [hr]⟩
    · unfold Expansion.advance
      cases hr : ctx.actions e.state with
      | nil => simp [hr]
      | cons a rest => simp [hr, h2]
  · intro h1 h2 a ha
    refine ⟨by simp [Expansion.next, h1, h2, ha], ?_, ?_⟩
    · intro hf
      unfold Expansion.advance at hf ⊢
      cases hr : e.remaining with
      | nil => simp [hr] at hf
      | cons b rest => exact ⟨b, by simp [hr]⟩
    · unfold Expansion.advance
      cases hr : e.remaining with
      | nil => simp [hr]
      | cons b rest => simp [hr, h2]

/-- C8 witness: a concrete expansion over state 10 with actions
`[fun s => s]` applied via addition: the protocol theorem instantiated at a
fresh expansion and at its started successor. -/
theorem claim_C8_witness :
    (Expansion.start ⟨id, Nat.add, fun _ => [7], fun _ => Val.real (ExtQ.fin 0)⟩
      (⟨10, some 7, [], true, false⟩ : Expansion Nat Nat) =
      .error "multiple attempts to start node expansion") ∧
    (Expansion.next ⟨id, Nat.add, fun _ => [7], fun _ => Val.real (ExtQ.fin 0)⟩
      (⟨10, some 7, [], true, false⟩ : Expansion Nat Nat) =
      .ok (7, 17, ⟨10, none, [], true, true⟩)) := by
  obtain ⟨h1, _, _, _, h5⟩ :=
    claim_C8_expansion_protocol
      (⟨id, Nat.add, fun _ => [7], fun _ => Val.real (ExtQ.fin 0)⟩ : Ctx Nat Nat)
      (⟨10, some 7, [], true, false⟩ : Expansion Nat Nat)
  obtain ⟨hn, _, _⟩ := h5 rfl rfl 7 rfl
  exact ⟨h1 rfl, hn⟩

namespace Store

theorem get?_eq_find? (st : Store S A) (i : Nat) :
    st.get? i = (st.nodes.find? fun kv => kv.1 = i).map fun kv => kv.2 := rfl

theorem get?_set_eq {st : Store S A} {i : Nat} {d0 : NodeData S A}
    (h : st.get? i = some d0) (d : NodeData S A) : (st.set i d).get? i = some d := by
  unfold Store.get? Store.set at *
  simp only [List.find?_map]
  have hp : ((fun kv : Nat × NodeData S A => decide (kv.1 = i)) ∘
      fun kv => if kv.1 = i then (i, d) else kv) =
      fun kv : Nat × NodeData S A => decide (kv.1 = i) := by
    funext kv
    by_cases hk : kv.1 = i <;> simp [hk]
  rw [hp]
  cases hf : st.nodes.find? fun kv : Nat × NodeData S A => decide (kv.1 = i) with
  | none => rw [hf] at h; simp at h
  | some kv0 =>
    have hkey : kv0.1 = i := by
      have := List.find?_some hf
      simpa using this
    simp [hkey]

theorem get?_set_ne {st : Store S A} {i j : Nat} (hne : j ≠ i) (d : NodeData S A) :
    (st.set i d).get? j = st.get? j := by
  unfold Store.get? Store.set
  simp only [List.find?_map]
  have hp : ((fun kv : Nat × NodeData S A => decide (kv.1 = j)) ∘
      fun kv => if kv.1 = i then (i, d) else kv) =
      fun kv : Nat × NodeData S A => decide (kv.1 = j) := by
    funext kv
    by_cases hk : kv.1 = i
    · simp [hk, Ne.symm hne]
    · simp [hk]
  rw [hp]
  cases hf : st.nodes.find? fun kv : Nat × NodeData S A => decide (kv.1 = j) with
  | none => simp
  | some kv0 =>
    have hkey : kv0.1 = j := by
      have := List.find?_some hf
      simpa using this
    have : kv0.1 ≠ i := by rw [hkey]; exact hne
    simp [this]

theorem get?_set_none {st : Store S A} {i j : Nat} (h : st.get? j = none)
    (d : NodeData S A) : (st.set i d).get? j = none := by
  by_cases hj : j = i
  · subst hj
    unfold Store.get? Store.set at *
    simp only [List.find?_map]
    have hp : ((fun kv : Nat × NodeData S A => decide (kv.1 = j)) ∘
        fun kv => if kv.1 = j then (j, d) else kv) =
        fun kv : Nat × NodeData S A => decide (kv.1 = j) := by
      funext kv
      by_cases hk : kv.1 = j <;> simp [hk]
    rw [hp]
    cases hf : st.nodes.find? fun kv : Nat × NodeData S A => decide (kv.1 = j) with
    | none => simp
    | some kv0 => rw [hf] at h; simp at h
  · rw [get?_set_ne hj d]; exact h

theorem get?_alloc_old {st : Store S A} {j : Nat} {d0 : NodeData S A}
    (h : st.get? j = some d0) (d : NodeData S A) :
    (st.alloc d).1.get? j = some d0 := by
  unfold Store.get? Store.alloc at *
  simp only [List.find?_append]
  cases hf : st.nodes.find? fun kv : Nat × NodeData S A => decide (kv.1 = j) with
  | none => rw [hf] at h; simp at h
  | some kv0 => rw [hf] at h; simpa using h

theorem get?_alloc_fresh {st : Store S A} (hk : st.KeysOk) (d : NodeData S A) :
    (st.alloc d).1.get? st.nextId = some d := by
  unfold Store.get? Store.alloc
  simp only [List.find?_append]
  have hf : (st.nodes.find? fun kv : Nat × NodeData S A => decide (kv.1 = st.nextId)) = none := by
    rw [List.find?_eq_none]
    intro kv hm
    have := hk kv hm
    simp
    omega
  rw [hf]
  simp [List.find?]

theorem get?_lt_nextId {st : Store S A} (hk : st.KeysOk) {j : Nat}
    {d : NodeData S A} (h : st.get? j = some d) : j < st.nextId := by
  unfold Store.get? at h
  cases hf : st.nodes.find? fun kv : Nat × NodeData S A => decide (kv.1 = j) with
  | none => rw [hf] at h; simp at h
  | some kv0 =>
    have hkey : kv0.1 = j := by
      have := List.find?_some hf
      simpa using this
    have hm : kv0 ∈ st.nodes := List.mem_of_find?_eq_some hf
    have := hk kv0 hm
    omega

theorem keysOk_set (st : Store S A) (i : Nat) (d : NodeData S A) (hk : st.KeysOk) :
    (st.set i d).KeysOk := by
  intro kv hm
  unfold Store.set at hm ⊢
  simp only [List.mem_map] at hm
  obtain ⟨kv0, hkv0, heq⟩ := hm
  have h0 := hk kv0 hkv0
  simp only
  split at heq
  · next he => rw [← heq]; simp only; omega
  · rw [← heq]; exact h0

theorem keysOk_alloc (st : Store S A) (d : NodeData S A) (hk : st.KeysOk) :
    (st.alloc d).1.KeysOk := by
  intro kv hm
  unfold Store.alloc at hm ⊢
  simp only [List.mem_append, List.mem_singleton] at hm
  simp only
  rcases hm with hm | hm
  · have := hk kv hm; omega
  · rw [hm]; simp

theorem nextId_set (st : Store S A) (i : Nat) (d : NodeData S A) :
    (st.set i d).nextId = st.nextId := rfl

end Store

/-- The second store differs from the first at most in the `stats` fields of
some nodes (the effect of stats refreshes). -/
def StatsOnly (st st' : Store S A) : Prop :=
  ∀ y, st'.get? y = st.get? y ∨
    ∃ d s2, st.get? y = some d ∧ st'.get? y = some { d with stats := s2 }

theorem StatsOnly.reflSO (st : Store S A) : StatsOnly st st :=
  fun _ => Or.inl rfl

theorem StatsOnly.transSO {st1 st2 st3 : Store S A}
    (h12 : StatsOnly st1 st2) (h23 : StatsOnly st2 st3) : StatsOnly st1 st3 := by
  intro y
  rcases h23 y with h | ⟨d2, s3, hg2, hg3⟩
  · rcases h12 y with h' | ⟨d1, s2, hg1, hg2⟩
    · exact Or.inl (h.trans h')
    · exact Or.inr ⟨d1, s2, hg1, h.trans hg2⟩
  · rcases h12 y with h' | ⟨d1, s2, hg1, hg2'⟩
    · exact Or.inr ⟨d2, s3, h'.symm.trans hg2, hg3⟩
    · refine Or.inr ⟨d1, s3, hg1, ?_⟩
      rw [hg2'] at hg2
      obtain rfl : d2 = { d1 with stats := s2 } := by injection hg2 with h; exact h.symm
      exact hg3

theorem StatsOnly.vparent_eq {st st' : Store S A} (h : StatsOnly st st') (y : Nat) :
    vparent st' y = vparent st y := by
  rcases h y with hy | ⟨d, s2, hg, hg'⟩
  · cases hgy : st.get? y with
    | none => simp [vparent, hy, hgy]
    | some d =>
      cases hdp : d.parent with
      | none => simp [vparent, hy, hgy, hdp]
      | some p =>
        rcases h p with hp | ⟨pd, ps2, hpg, hpg'⟩
        · simp [vparent, hy, hgy, hdp, hp]
        · simp [vparent, hy, hgy, hdp, hpg, hpg']
  · cases hdp : d.parent with
    | none => simp [vparent, hg, hg', hdp]
    | some p =>
      rcases h p with hp | ⟨pd, ps2, hpg, hpg'⟩
      · simp [vparent, hg, hg', hdp, hp]
      · simp [vparent, hg, hg', hdp, hpg, hpg']

theorem StatsOnly.cached_eq {st st' : Store S A} (h : StatsOnly st st') {y : Nat}
    {d : NodeData S A} (hg : st.get? y = some d) :
    ∃ d', st'.get? y = some d' ∧ d'.cachedBound = d.cachedBound ∧
      d'.parent = d.parent ∧ d'.children = d.children ∧
      d'.expansion = d.expansion ∧ d'.state = d.state ∧
      d'.ancestors = d.ancestors ∧ d'.root = d.root := by
  rcases h y with hy | ⟨d0, s2, hg0, hg'⟩
  · exact ⟨d, by rw [hy, hg], rfl, rfl, rfl, rfl, rfl, rfl, rfl⟩
  · have he : d0 = d := by
      rw [hg] at hg0
      injection hg0 with he
      exact he.symm
    subst he
    exact ⟨{ d0 with stats := s2 }, hg', rfl, rfl, rfl, rfl, rfl, rfl, rfl⟩

theorem refreshNode_statsOnly (st : Store S A) (i : Nat) :
    StatsOnly st (refreshNode st i).1 := by
  unfold refreshNode
  cases hg : st.get? i with
  | none => exact StatsOnly.reflSO st
  | some d =>
    intro y
    by_cases hy : y = i
    · subst hy
      exact Or.inr ⟨d, _, hg, Store.get?_set_eq hg _⟩
    · exact Or.inl (Store.get?_set_ne hy _)

theorem refreshAncestors_statsOnly (st : Store S A) (l : List Nat) :
    StatsOnly st (refreshAncestors st l) := by
  induction l generalizing st with
  | nil => exact StatsOnly.reflSO st
  | cons a rest ih =>
    unfold refreshAncestors
    split
    · exact (refreshNode_statsOnly st a).transSO (ih _)
    · exact refreshNode_statsOnly st a

theorem removeChild_ok {st : Store S A} {p c : Nat} {st' : Store S A}
    (h : removeChild st p c = .ok st') :
    ∃ pd cd, st.get? p = some pd ∧ st.get? c = some cd ∧ cd.parent = some p ∧
      c ∈ pd.children ∧
      st' = (st.set p { pd with children := pd.children.erase c }).set c
        { cd with ancestors := [], parent := none, root := c, depth := 0 } := by
  unfold removeChild at h
  cases hgp : st.get? p with
  | none => rw [hgp] at h; cases hgc : st.get? c <;> rw [hgc] at h <;> exact absurd h (by simp)
  | some pd =>
    cases hgc : st.get? c with
    | none => rw [hgp, hgc] at h; exact absurd h (by simp)
    | some cd =>
      rw [hgp, hgc] at h
      dsimp only at h
      by_cases hcp : cd.parent = some p
      · rw [if_pos hcp] at h
        by_cases hcm : c ∈ pd.children
        · rw [if_pos hcm] at h
          injection h with h
          exact ⟨pd, cd, rfl, rfl, hcp, hcm, h.symm⟩
        · rw [if_neg hcm] at h; exact absurd h (by simp)
      · rw [if_neg hcp] at h; exact absurd h (by simp)

theorem removeChild_get_c {st : Store S A} {p c : Nat} {st' : Store S A}
    (h : removeChild st p c = .ok st') :
    ∃ cd, st.get? c = some cd ∧
      st'.get? c = some { cd with ancestors := [], parent := none, root := c, depth := 0 } := by
  obtain ⟨pd, cd, hgp, hgc, hcp, hcm, rfl⟩ := removeChild_ok h
  refine ⟨cd, hgc, ?_⟩
  by_cases hpc : c = p
  · subst hpc
    exact Store.get?_set_eq (Store.get?_set_eq hgp _) _
  · exact Store.get?_set_eq (by rw [Store.get?_set_ne hpc _]; exact hgc) _

theorem removeChild_get_other {st : Store S A} {p c : Nat} {st' : Store S A}
    (h : removeChild st p c = .ok st') {y : Nat} (hyp : y ≠ p) (hyc : y ≠ c) :
    st'.get? y = st.get? y := by
  obtain ⟨pd, cd, hgp, hgc, hcp, hcm, rfl⟩ := removeChild_ok h
  rw [Store.get?_set_ne hyc _, Store.get?_set_ne hyp _]

theorem removeChild_get_p {st : Store S A} {p c : Nat} {st' : Store S A}
    (h : removeChild st p c = .ok st') (hpc : p ≠ c) :
    ∃ pd, st.get? p = some pd ∧
      st'.get? p = some { pd with children := pd.children.erase c } := by
  obtain ⟨pd, cd, hgp, hgc, hcp, hcm, rfl⟩ := removeChild_ok h
  refine ⟨pd, hgp, ?_⟩
  rw [Store.get?_set_ne (Ne.symm (fun he => hpc he.symm)) _]
  exact Store.get?_set_eq hgp _

theorem removeChild_vparent_c {st : Store S A} {p c : Nat} {st' : Store S A}
    (h : removeChild st p c = .ok st') : vparent st' c = none := by
  obtain ⟨cd, hgc, hgc'⟩ := removeChild_get_c h
  simp [vparent, hgc']

theorem removeChild_vparent_other {st : Store S A} {p c : Nat} {st' : Store S A}
    (h : removeChild st p c = .ok st') {y : Nat} (hyc : y ≠ c) :
    vparent st' y = vparent st y := by
  obtain ⟨pd, cd, hgp, hgc, hcp, hcm, he⟩ := removeChild_ok h
  have hyd : st'.get? y = st.get? y ∨
      (y = p ∧ p ≠ c ∧ st'.get? y = some { pd with children := pd.children.erase c }) := by
    by_cases hyp : y = p
    · subst hyp
      have hpc : y ≠ c := hyc
      right
      refine ⟨rfl, hpc, ?_⟩
      rw [he, Store.get?_set_ne hyc _]
      exact Store.get?_set_eq hgp _
    · left
      exact removeChild_get_other h hyp hyc
  have hqview : ∀ q pd0, st.get? q = some pd0 →
      ∃ pd1, st'.get? q = some pd1 ∧ (y ∈ pd1.children ↔ y ∈ pd0.children) := by
    intro q pd0 hq
    by_cases hqc : q = c
    · subst hqc
      obtain ⟨cd0, hgc0, hgc0'⟩ := removeChild_get_c h
      rw [hq] at hgc0
      injection hgc0 with hgc0
      subst hgc0
      exact ⟨_, hgc0', by simp⟩
    · by_cases hqp : q = p
      · subst hqp
        have hpc2 : q ≠ c := hqc
        obtain ⟨pd1, hgp1, hgp1'⟩ := removeChild_get_p h hpc2
        rw [hq] at hgp1
        injection hgp1 with hgp1
        subst hgp1
        refine ⟨_, hgp1', ?_⟩
        simp only
        exact List.mem_erase_of_ne hyc
      · exact ⟨pd0, by rw [removeChild_get_other h hqp hqc]; exact hq, Iff.rfl⟩
  have hqnone : ∀ q, st.get? q = none → st'.get? q = none := by
    intro q hq
    by_cases hqc : q = c
    · subst hqc
      obtain ⟨cd0, hgc0, _⟩ := removeChild_get_c h
      rw [hq] at hgc0; exact absurd hgc0 (by simp)
    · by_cases hqp : q = p
      · subst hqp
        rw [hq] at hgp; exact absurd hgp (by simp)
      · rw [removeChild_get_other h hqp hqc]; exact hq
  rcases hyd with hyd | ⟨hyp, hpc, hyd⟩
  · cases hgy : st.get? y with
    | none => simp [vparent, hyd, hgy]
    | some d =>
      cases hdp : d.parent with
      | none => simp [vparent, hyd, hgy, hdp]
      | some q =>
        cases hq : st.get? q with
        | none => simp [vparent, hyd, hgy, hdp, hq, hqnone q hq]
        | some pd0 =>
          obtain ⟨pd1, hq', hiff⟩ := hqview q pd0 hq
          by_cases hym : y ∈ pd0.children
          · simp [vparent, hyd, hgy, hdp, hq, hq', hym, hiff.mpr hym]
          · have hym1 : y ∉ pd1.children := fun hx => hym (hiff.mp hx)
            simp [vparent, hyd, hgy, hdp, hq, hq', hym, hym1]
  · subst hyp
    cases hdp : pd.parent with
    | none => simp [vparent, hyd, hgp, hdp]
    | some q =>
      cases hq : st.get? q with
      | none => simp [vparent, hyd, hgp, hdp, hq, hqnone q hq]
      | some pd0 =>
        obtain ⟨pd1, hq', hiff⟩ := hqview q pd0 hq
        by_cases hym : y ∈ pd0.children
        · simp [vparent, hyd, hgp, hdp, hq, hq', hym, hiff.mpr hym]
        · have hym1 : y ∉ pd1.children := fun hx => hym (hiff.mp hx)
          simp [vparent, hyd, hgp, hdp, hq, hq', hym, hym1]

theorem nodeBound_ok {ctx : Ctx S A} {st : Store S A} {i : Nat} {stb : Store S A}
    {b : Val} (h : nodeBound ctx st i = .ok (stb, b)) :
    (∀ y, y ≠ i → stb.get? y = st.get? y) ∧
    (∃ d, st.get? i = some d ∧ stb.get? i = some { d with cachedBound := some b } ∧
      (d.cachedBound = none ∨ d.cachedBound = some b)) := by
  unfold nodeBound at h
  cases hg : st.get? i with
  | none => rw [hg] at h; exact absurd h (by simp)
  | some d =>
    rw [hg] at h
    dsimp only at h
    cases hc : d.cachedBound with
    | some b0 =>
      rw [hc] at h
      injection h with h
      injection h with h1 h2
      subst h1
      subst h2
      have he : ({ d with cachedBound := some b0 } : NodeData S A) = d := by
        cases d
        simp_all
      refine ⟨fun y _ => rfl, ⟨d, rfl, ?_, Or.inr hc⟩⟩
      rw [hg, he]
    | none =>
      rw [hc] at h
      cases hs : d.state with
      | none => rw [hs] at h; exact absurd h (by simp)
      | some s =>
        rw [hs] at h
        injection h with h
        injection h with h1 h2
        subst h2
        refine ⟨?_, ⟨d, rfl, ?_, Or.inl hc⟩⟩
        · intro y hy
          rw [← h1]
          exact Store.get?_set_ne hy _
        · rw [← h1]
          have hds : some s = d.state := hs.symm
          rw [hds]
          exact Store.get?_set_eq hg _

theorem nodeBound_vparent {ctx : Ctx S A} {st : Store S A} {i : Nat} {stb : Store S A}
    {b : Val} (h : nodeBound ctx st i = .ok (stb, b)) (y : Nat) :
    vparent stb y = vparent st y := by
  obtain ⟨hother, d, hg, hgi, hcd⟩ := nodeBound_ok h
  have hdata : ∀ z, (stb.get? z = st.get? z) ∨
      (z = i ∧ st.get? z = some d ∧ stb.get? z = some { d with cachedBound := some b }) := by
    intro z
    by_cases hz : z = i
    · subst hz; exact Or.inr ⟨rfl, hg, hgi⟩
    · exact Or.inl (hother z hz)
  rcases hdata y with hy | ⟨rfl, hgy, hgy'⟩
  · cases hgy : st.get? y with
    | none => simp [vparent, hy, hgy]
    | some dy =>
      cases hdp : dy.parent with
      | none => simp [vparent, hy, hgy, hdp]
      | some q =>
        rcases hdata q with hq | ⟨rfl, hgq, hgq'⟩
        · simp [vparent, hy, hgy, hdp, hq]
        · simp [vparent, hy, hgy, hdp, hgq, hgq']
  · cases hdp : d.parent with
    | none => simp [vparent, hgy, hgy', hdp]
    | some q =>
      rcases hdata q with hq | ⟨rfl, hgq, hgq'⟩
      · simp [vparent, hgy, hgy', hdp, hq]
      · simp [vparent, hgy, hgy', hdp, hgq, hgq']

theorem nodeBound_cached {ctx : Ctx S A} {st : Store S A} {i : Nat} {stb : Store S A}
    {b : Val} (h : nodeBound ctx st i = .ok (stb, b)) :
    ∃ d', stb.get? i = some d' ∧ d'.cachedBound = some b := by
  obtain ⟨_, d, _, hgi, _⟩ := nodeBound_ok h
  exact ⟨_, hgi, rfl⟩

/-- The effect profile of a prune/delete step on the store: every verified
parent link is preserved or severed (never rewired), memoized bounds are
never lost, and parentless nodes stay parentless. -/
def PruneStep (st st' : Store S A) : Prop :=
  (∀ y, vparent st' y = vparent st y ∨ vparent st' y = none) ∧
  (∀ y d b, st.get? y = some d → d.cachedBound = some b →
    ∃ d', st'.get? y = some d' ∧ d'.cachedBound = some b) ∧
  (∀ y d, st.get? y = some d → d.parent = none →
    ∃ d', st'.get? y = some d' ∧ d'.parent = none)

theorem PruneStep.reflPS (st : Store S A) : PruneStep st st :=
  ⟨fun _ => Or.inl rfl, fun _ d b hg hc => ⟨d, hg, hc⟩, fun _ d hg hp => ⟨d, hg, hp⟩⟩

theorem PruneStep.transPS {st1 st2 st3 : Store S A}
    (h12 : PruneStep st1 st2) (h23 : PruneStep st2 st3) : PruneStep st1 st3 := by
  obtain ⟨a12, b12, c12⟩ := h12
  obtain ⟨a23, b23, c23⟩ := h23
  refine ⟨?_, ?_, ?_⟩
  · intro y
    rcases a23 y with h | h
    · rw [h]; exact a12 y
    · exact Or.inr h
  · intro y d b hg hc
    obtain ⟨d2, hg2, hc2⟩ := b12 y d b hg hc
    exact b23 y d2 b hg2 hc2
  · intro y d hg hp
    obtain ⟨d2, hg2, hp2⟩ := c12 y d hg hp
    exact c23 y d2 hg2 hp2

theorem StatsOnly.pruneStep {st st' : Store S A} (h : StatsOnly st st') :
    PruneStep st st' := by
  refine ⟨fun y => Or.inl (h.vparent_eq y), ?_, ?_⟩
  · intro y d b hg hc
    obtain ⟨d', hg', hcb, _⟩ := h.cached_eq hg
    exact ⟨d', hg', by rw [hcb]; exact hc⟩
  · intro y d hg hp
    obtain ⟨d', hg', _, hpp, _⟩ := h.cached_eq hg
    exact ⟨d', hg', by rw [hpp]; exact hp⟩

theorem removeChild_pruneStep {st : Store S A} {p c : Nat} {st' : Store S A}
    (h : removeChild st p c = .ok st') : PruneStep st st' := by
  refine ⟨?_, ?_, ?_⟩
  · intro y
    by_cases hyc : y = c
    · subst hyc; exact Or.inr (removeChild_vparent_c h)
    · exact Or.inl (removeChild_vparent_other h hyc)
  · intro y d b hg hc
    by_cases hyc : y = c
    · subst hyc
      obtain ⟨cd, hgc, hgc'⟩ := removeChild_get_c h
      rw [hg] at hgc
      injection hgc with hgc
      subst hgc
      exact ⟨_, hgc', hc⟩
    · by_cases hyp : y = p
      · subst hyp
        obtain ⟨pd, hgp, hgp'⟩ := removeChild_get_p h hyc
        rw [hg] at hgp
        injection hgp with hgp
        subst hgp
        exact ⟨_, hgp', hc⟩
      · exact ⟨d, by rw [removeChild_get_other h hyp hyc]; exact hg, hc⟩
  · intro y d hg hp
    by_cases hyc : y = c
    · subst hyc
      obtain ⟨cd, hgc, hgc'⟩ := removeChild_get_c h
      exact ⟨_, hgc', rfl⟩
    · by_cases hyp : y = p
      · subst hyp
        obtain ⟨pd, hgp, hgp'⟩ := removeChild_get_p h hyc
        rw [hg] at hgp
        injection hgp with hgp
        subst hgp
        exact ⟨_, hgp', hp⟩
      · exact ⟨d, by rw [removeChild_get_other h hyp hyc]; exact hg, hp⟩

theorem nodeBound_pruneStep {ctx : Ctx S A} {st : Store S A} {i : Nat}
    {stb : Store S A} {b : Val} (h : nodeBound ctx st i = .ok (stb, b)) :
    PruneStep st stb := by
  obtain ⟨hother, d, hg, hgi, hcd⟩ := nodeBound_ok h
  refine ⟨fun y => Or.inl (nodeBound_vparent h y), ?_, ?_⟩
  · intro y dy bv hgy hcy
    by_cases hy : y = i
    · subst hy
      rw [hg] at hgy
      injection hgy with hgy
      subst hgy
      have hb : some b = some bv := by
        rcases hcd with hcd | hcd
        · rw [hcd] at hcy; exact absurd hcy (by simp)
        · rw [hcd] at hcy; exact hcy
      exact ⟨_, hgi, hb⟩
    · exact ⟨dy, by rw [hother y hy]; exact hgy, hcy⟩
  · intro y dy hgy hpy
    by_cases hy : y = i
    · subst hy
      rw [hg] at hgy
      injection hgy with hgy
      subst hgy
      exact ⟨_, hgi, hpy⟩
    · exact ⟨dy, by rw [hother y hy]; exact hgy, hpy⟩

/-- The reflexive-transitive closure of the upward step taken by the walk in
`delete()`: move to the parent while the parent's expansion is finished and
the current node is its only child. -/
inductive ClimbsTo (st : Store S A) : Nat → Nat → Prop
  | refl (x : Nat) : ClimbsTo st x x
  | step {x p n : Nat} {d pd : NodeData S A} :
      st.get? x = some d → d.parent = some p → st.get? p = some pd →
      pd.expansion.isFinished = true → pd.children = [x] →
      ClimbsTo st p n → ClimbsTo st x n

theorem ClimbsTo.onChain {st : Store S A} {x n : Nat} (h : ClimbsTo st x n) :
    onChain st x n := by
  induction h with
  | refl x => exact ⟨0, rfl⟩
  | @step x p n d pd hg hp hgp hfin hch hrest ih =>
    obtain ⟨k, hk⟩ := ih
    refine ⟨k + 1, ?_⟩
    rw [vpIter_succ]
    have hv : vparent st x = some p := by
      unfold vparent
      rw [hg]
      dsimp only
      rw [hp]
      dsimp only
      rw [hgp]
      dsimp only
      rw [if_pos (by rw [hch]; exact List.mem_singleton.mpr rfl)]
    rw [hv, Option.some_bind]
    exact hk

theorem ClimbsTo.last {st : Store S A} {x n : Nat} (h : ClimbsTo st x n) :
    x = n ∨ ∃ c cd nd, ClimbsTo st x c ∧ st.get? c = some cd ∧ cd.parent = some n ∧
      st.get? n = some nd ∧ nd.expansion.isFinished = true ∧ nd.children = [c] := by
  induction h with
  | refl x => exact Or.inl rfl
  | @step x p n d pd hg hp hgp hfin hch hrest ih =>
    rcases ih with rfl | ⟨c, cd, nd, hclimb, hgc, hcp, hgn, hfinn, hchn⟩
    · exact Or.inr ⟨_, _, _, ClimbsTo.refl _, hg, hp, hgp, hfin, hch⟩
    · exact Or.inr ⟨c, cd, nd, ClimbsTo.step hg hp hgp hfin hch hclimb, hgc, hcp,
        hgn, hfinn, hchn⟩

theorem deleteWalk_climbsTo (st : Store S A) (fuel : Nat) :
    ∀ i, ClimbsTo st i (deleteWalk st i fuel) := by
  induction fuel with
  | zero => intro i; exact ClimbsTo.refl i
  | succ fuel ih =>
    intro i
    unfold deleteWalk
    cases hg : st.get? i with
    | none => exact ClimbsTo.refl i
    | some d =>
      dsimp only
      cases hp : d.parent with
      | none => exact ClimbsTo.refl i
      | some p =>
        dsimp only
        cases hgp : st.get? p with
        | none => exact ClimbsTo.refl i
        | some pd =>
          dsimp only
          split
          · next hcond =>
            exact ClimbsTo.step hg hp hgp hcond.1 hcond.2 (ih p)
          · exact ClimbsTo.refl i

theorem deleteWalk_parent_none {st : Store S A} {i : Nat} {d : NodeData S A}
    (hg : st.get? i = some d) (hp : d.parent = none) (fuel : Nat) :
    deleteWalk st i fuel = i := by
  cases fuel with
  | zero => rfl
  | succ fuel =>
    unfold deleteWalk
    rw [hg]
    dsimp only
    rw [hp]

theorem except_bind_ok {α β : Type} (a : α) (f : α → Except String β) :
    (Except.ok a >>= f) = f a := rfl

theorem exceptOk_of_okBind {α β : Type} {e : Except String α}
    {f : α → Except String β} {b : β} (h : (e >>= f) = .ok b) :
    ∃ a, e = .ok a ∧ f a = .ok b := by
  cases e with
  | error msg => exact absurd h (by simp [Bind.bind, Except.bind])
  | ok a => exact ⟨a, rfl, h⟩

/-- Execution profile of a successful `delete()`: the walk target, and the
facts established along whichever branch ran. -/
theorem delete_ok {st st' : Store S A} {i : Nat} (h : delete st i = .ok st') :
    ∃ d0 nd, st.get? i = some d0 ∧
      st.get? (deleteWalk st i d0.ancestors.length) = some nd ∧
      ((nd.parent = none ∧ deleteWalk st i d0.ancestors.length = d0.root ∧
          nd.children.length < 2 ∧
          ((nd.children = [] ∧
              st' = (refreshNode st (deleteWalk st i d0.ancestors.length)).1) ∨
           (∃ c st1, nd.children = [c] ∧
              removeChild st (deleteWalk st i d0.ancestors.length) c = .ok st1 ∧
              st' = (refreshNode st1 (deleteWalk st i d0.ancestors.length)).1)) ∧
          (∃ nd2, st'.get? (deleteWalk st i d0.ancestors.length) = some nd2 ∧
            sentinelStats nd2.stats)) ∨
       (∃ p st1 pd1, nd.parent = some p ∧
          removeChild st p (deleteWalk st i d0.ancestors.length) = .ok st1 ∧
          st1.get? p = some pd1 ∧
          ¬(pd1.expansion.isFinished = true ∧ pd1.children = []) ∧
          st' = refreshAncestors st1 nd.ancestors)) := by
  unfold delete at h
  cases hg0 : st.get? i with
  | none => rw [hg0] at h; exact absurd h (by simp)
  | some d0 =>
    rw [hg0] at h
    dsimp only at h
    cases hgn : st.get? (deleteWalk st i d0.ancestors.length) with
    | none => rw [hgn] at h; exact absurd h (by simp)
    | some nd =>
      rw [hgn] at h
      dsimp only at h
      refine ⟨d0, nd, by simp [hg0], by simp [hgn], ?_⟩
      cases hp : nd.parent with
      | none =>
        rw [hp] at h
        dsimp only at h
        split at h
        · next hcond =>
          have hlen := hcond.2
          cases hch : nd.children with
          | nil =>
            rw [hch] at h
            dsimp only at h
            cases hg2 : (refreshNode st (deleteWalk st i d0.ancestors.length)).1.get?
                (deleteWalk st i d0.ancestors.length) with
            | none => rw [hg2] at h; exact absurd h (by simp)
            | some nd2 =>
              rw [hg2] at h
              dsimp only at h
              split at h
              · next hsent =>
                injection h with h
                subst h
                exact Or.inl ⟨by simp [hp], hcond.1, by rw [hch] at hlen; exact hlen,
                  Or.inl ⟨by simp [hch], rfl⟩, nd2, hg2, hsent⟩
              · exact absurd h (by simp)
          | cons c rest =>
            rw [hch] at h
            dsimp only at h
            obtain ⟨st1, hrc, h⟩ := exceptOk_of_okBind h
            cases hg2 : (refreshNode st1 (deleteWalk st i d0.ancestors.length)).1.get?
                (deleteWalk st i d0.ancestors.length) with
            | none => rw [hg2] at h; exact absurd h (by simp)
            | some nd2 =>
              rw [hg2] at h
              dsimp only at h
              split at h
              · next hsent =>
                injection h with h
                subst h
                have hlen2 : rest.length = 0 := by
                  rw [hch] at hlen
                  simp at hlen
                  omega
                have hrest : rest = [] := List.eq_nil_of_length_eq_zero hlen2
                subst hrest
                exact Or.inl ⟨by simp [hp], hcond.1, by rw [hch] at hlen; exact hlen,
                  Or.inr ⟨c, st1, by simp [hch], hrc, rfl⟩, nd2, hg2, hsent⟩
              · exact absurd h (by simp)
        · exact absurd h (by simp)
      | some p =>
        rw [hp] at h
        dsimp only at h
        obtain ⟨st1, hrc, h⟩ := exceptOk_of_okBind h
        cases hg1 : st1.get? p with
        | none => rw [hg1] at h; exact absurd h (by simp)
        | some pd1 =>
          rw [hg1] at h
          dsimp only at h
          split at h
          · exact absurd h (by simp)
          · next hnex =>
            injection h with h
            subst h
            refine Or.inr ⟨p, st1, pd1, by simp [hp], hrc, hg1, ?_, rfl⟩
            intro hcon
            exact hnex ⟨hcon.1, hcon.2⟩

theorem delete_pruneStep {st st' : Store S A} {i : Nat}
    (h : delete st i = .ok st') : PruneStep st st' := by
  obtain ⟨d0, nd, hg0, hgn, hbr⟩ := delete_ok h
  rcases hbr with ⟨hp, hroot, hlen, hbr2, _⟩ | ⟨p, st1, pd1, hp, hrc, hg1, hnex, hst'⟩
  · rcases hbr2 with ⟨hch, hst'⟩ | ⟨c, st1, hch, hrc, hst'⟩
    · rw [hst']
      exact (refreshNode_statsOnly st _).pruneStep
    · rw [hst']
      exact (removeChild_pruneStep hrc).transPS (refreshNode_statsOnly st1 _).pruneStep
  · rw [hst']
    exact (removeChild_pruneStep hrc).transPS (refreshAncestors_statsOnly st1 _).pruneStep

theorem delete_root_childless {st st' : Store S A} {r : Nat} {rd : NodeData S A}
    (hg : st.get? r = some rd) (hp : rd.parent = none)
    (h : delete st r = .ok st') :
    ∃ rd', st'.get? r = some rd' ∧ rd'.children = [] := by
  obtain ⟨d0, nd, hg0, hgn, hbr⟩ := delete_ok h
  have hd0 : d0 = rd := by rw [hg0] at hg; injection hg with hg
  subst hd0
  have hwalk : deleteWalk st r d0.ancestors.length = r := deleteWalk_parent_none hg0 hp _
  rw [hwalk] at hgn hbr
  have hnd : nd = d0 := by rw [hg0] at hgn; injection hgn with hgn; exact hgn.symm
  subst hnd
  rcases hbr with ⟨_, _, _, hbr2, _⟩ | ⟨p, st1, pd1, hpn, _, _, _, _⟩
  · rcases hbr2 with ⟨hch, hst'⟩ | ⟨c, st1, hch, hrc, hst'⟩
    · subst hst'
      obtain ⟨rd', hgr', _, _, hchr', _⟩ := (refreshNode_statsOnly st r).cached_eq hg0
      exact ⟨rd', hgr', by rw [hchr', hch]⟩
    · subst hst'
      have hcr : c ≠ r := by
        obtain ⟨_, cd, _, hgc, hcp, _, _⟩ := removeChild_ok hrc
        intro he
        subst he
        rw [hgc] at hg0
        injection hg0 with hg0
        rw [hg0] at hcp
        rw [hp] at hcp
        exact absurd hcp (by simp)
      obtain ⟨pd, hgp, hgp'⟩ := removeChild_get_p hrc (Ne.symm hcr)
      have hpd : pd = nd := by rw [hgp] at hg0; injection hg0 with hg0
      subst hpd
      obtain ⟨rd', hgr', _, _, hchr', _⟩ :=
        (refreshNode_statsOnly st1 r).cached_eq hgp'
      refine ⟨rd', hgr', ?_⟩
      rw [hchr']
      simp only
      rw [hch]
      simp
  · rw [hpn] at hp; exact absurd hp (by simp)

theorem onChain_end_childless {st : Store S A} {r x : Nat} {rd : NodeData S A}
    (hg : st.get? r = some rd) (hch : rd.children = [])
    (h : onChain st x r) : x = r := by
  obtain ⟨k, hk⟩ := h
  cases k with
  | zero => injection hk with hk
  | succ k =>
    exfalso
    obtain ⟨y, hy, hvy⟩ := vpIter_last_step hk
    unfold vparent at hvy
    cases hgy : st.get? y with
    | none => rw [hgy] at hvy; exact absurd hvy (by simp)
    | some dy =>
      rw [hgy] at hvy
      dsimp only at hvy
      cases hpy : dy.parent with
      | none => rw [hpy] at hvy; exact absurd hvy (by simp)
      | some q =>
        rw [hpy] at hvy
        dsimp only at hvy
        cases hgq : st.get? q with
        | none => rw [hgq] at hvy; exact absurd hvy (by simp)
        | some qd =>
          rw [hgq] at hvy
          dsimp only at hvy
          by_cases hm : y ∈ qd.children
          · rw [if_pos hm] at hvy
            injection hvy with hvy
            subst hvy
            rw [hg] at hgq
            injection hgq with hgq
            subst hgq
            rw [hch] at hm
            exact absurd hm (by simp)
          · rw [if_neg hm] at hvy
            exact absurd hvy (by simp)

/-- A deleted node can remain attached to the (parentless) root only if it is
the root itself: `delete` severs the walk target (or the root's child) from
the tree, so the argument node's chain to the root is dead afterwards. -/
theorem delete_detach {st st' : Store S A} {i r : Nat}
    (h : delete st i = .ok st') {rd : NodeData S A}
    (hgr : st.get? r = some rd) (hpr : rd.parent = none) :
    onChain st' i r → i = r := by
  intro hchain
  obtain ⟨k, hk⟩ := hchain
  have hps := delete_pruneStep h
  have hag := hps.1
  have hvr : vparent st r = none := vparent_none_of_parent_none hgr hpr
  obtain ⟨d0, nd, hg0, hgn, hbr⟩ := delete_ok h
  have hclimb : ClimbsTo st i (deleteWalk st i d0.ancestors.length) :=
    deleteWalk_climbsTo st _ i
  have hagree := vpIter_agree hag hk
  have hkst : vpIter st k i = some r := by rw [← hagree k (le_refl k)]; exact hk
  rcases hbr with ⟨hpn, hroot, hlen, hbr2, hsent⟩ |
      ⟨p, st1, pd1, hpn, hrc, hg1, hnex, hst'⟩
  · rcases ClimbsTo.last hclimb with hin | ⟨c, cd, nd2, hclimbc, hgc, hcp, hgn2, hfin2, hch2⟩
    · cases k with
      | zero => injection hk with hk
      | succ k =>
        exfalso
        have hgi : st.get? i = some nd := by rw [hin]; exact hgn
        have hvi : vparent st i = none := vparent_none_of_parent_none hgi hpn
        rw [vpIter_succ, hvi] at hkst
        exact absurd hkst (by simp)
    · have hnd2 : nd2 = nd := by
        have := hgn2.symm.trans hgn
        injection this with he
      subst hnd2
      rcases hbr2 with ⟨hch, _⟩ | ⟨c0, st1, hch0, hrc, hst'⟩
      · rw [hch] at hch2; exact absurd hch2 (by simp)
      · exfalso
        have hcc0 : c = c0 := by
          rw [hch0] at hch2
          injection hch2 with he
          exact he.symm
        subst hcc0
        have hv1 : vparent st1 c = none := removeChild_vparent_c hrc
        have hv' : vparent st' c = none := by
          rw [hst', (refreshNode_statsOnly st1 _).vparent_eq c]
          exact hv1
        obtain ⟨t, ht⟩ := ClimbsTo.onChain hclimbc
        obtain ⟨hle, ht'⟩ := onChain_transfer hag hvr hk ht
        by_cases htk : t = k
        · subst htk
          have hcr : c = r := by
            have := ht.symm.trans hkst
            injection this with he
          subst hcr
          have : cd = rd := by
            have := hgc.symm.trans hgr
            injection this with he
          subst this
          rw [hpr] at hcp
          exact absurd hcp (by simp)
        · have htlt : t < k := lt_of_le_of_ne hle htk
          have hdead : vpIter st' k i = none := by
            have hsplit : k = t + (k - t) := by omega
            rw [hsplit, vpIter_add, ht', Option.some_bind]
            have hkt : k - t = (k - t - 1) + 1 := by omega
            rw [hkt, vpIter_none_succ hv']
          rw [hk] at hdead
          exact absurd hdead (by simp)
  · exfalso
    have hv1 : vparent st1 (deleteWalk st i d0.ancestors.length) = none :=
      removeChild_vparent_c hrc
    have hv' : vparent st' (deleteWalk st i d0.ancestors.length) = none := by
      rw [hst', (refreshAncestors_statsOnly st1 _).vparent_eq _]
      exact hv1
    obtain ⟨t, ht⟩ := ClimbsTo.onChain hclimb
    obtain ⟨hle, ht'⟩ := onChain_transfer hag hvr hk ht
    by_cases htk : t = k
    · subst htk
      have hnr : deleteWalk st i d0.ancestors.length = r := by
        have := ht.symm.trans hkst
        injection this with he
      have : nd = rd := by
        rw [hnr] at hgn
        have := hgn.symm.trans hgr
        injection this with he
      subst this
      rw [hpr] at hpn
      exact absurd hpn (by simp)
    · have htlt : t < k := lt_of_le_of_ne hle htk
      have hdead : vpIter st' k i = none := by
        have hsplit : k = t + (k - t) := by omega
        rw [hsplit, vpIter_add, ht', Option.some_bind]
        have hkt : k - t = (k - t - 1) + 1 := by omega
        rw [hkt, vpIter_none_succ hv']
      rw [hk] at hdead
      exact absurd hdead (by simp)

theorem vpIter_congr {st st' : Store S A}
    (hag : ∀ y, vparent st' y = vparent st y) (k : Nat) :
    ∀ x, vpIter st' k x = vpIter st k x := by
  induction k with
  | zero => intro x; rfl
  | succ k ih =>
    intro x
    rw [vpIter_succ, vpIter_succ, hag x]
    cases vparent st x with
    | none => rfl
    | some p => simp [ih p]

theorem vparent_some {st : Store S A} {y q : Nat} (h : vparent st y = some q) :
    ∃ yd qd, st.get? y = some yd ∧ yd.parent = some q ∧ st.get? q = some qd ∧
      y ∈ qd.children := by
  unfold vparent at h
  cases hgy : st.get? y with
  | none => rw [hgy] at h; exact absurd h (by simp)
  | some yd =>
    rw [hgy] at h
    dsimp only at h
    cases hpy : yd.parent with
    | none => rw [hpy] at h; exact absurd h (by simp)
    | some q0 =>
      rw [hpy] at h
      dsimp only at h
      cases hgq : st.get? q0 with
      | none => rw [hgq] at h; exact absurd h (by simp)
      | some qd =>
        rw [hgq] at h
        dsimp only at h
        by_cases hm : y ∈ qd.children
        · rw [if_pos hm] at h
          injection h with h
          subst h
          exact ⟨yd, qd, by simp [hgy], hpy, by simp [hgq], hm⟩
        · rw [if_neg hm] at h
          exact absurd h (by simp)

theorem Passed.monoP {st st' : Store S A} (hps : PruneStep st st') {cutoff : Val}
    {x : Nat} (hp : Passed st cutoff x) : Passed st' cutoff x := by
  obtain ⟨d, b, hg, hc, hlt⟩ := hp
  obtain ⟨d', hg', hc'⟩ := hps.2.1 x d b hg hc
  exact ⟨d', b, hg', hc', hlt⟩

theorem RootOk.monoR {st st' : Store S A} (hps : PruneStep st st') {r : Nat}
    (hro : RootOk st r) : RootOk st' r := by
  obtain ⟨rd, hg, hp⟩ := hro
  obtain ⟨rd', hg', hp'⟩ := hps.2.2 r rd hg hp
  exact ⟨rd', hg', hp'⟩

/-- Invariant of the depth-first prune sweep: every node attached to the root
is the root itself, already checked strictly below the cutoff, or lies in the
subtree of some stack entry. -/
def Covered (st : Store S A) (cutoff : Val) (r : Nat) (stack : List Nat) : Prop :=
  ∀ x, onChain st x r → x = r ∨ Passed st cutoff x ∨ ∃ j ∈ stack, onChain st x j

theorem pruneLoop_sound {ctx : Ctx S A} {cutoff : Val} :
    ∀ (fuel : Nat) (st : Store S A) (stack : List Nat) (st' : Store S A) (r : Nat),
      pruneLoop ctx cutoff st stack fuel = .ok st' →
      RootOk st r → Covered st cutoff r stack →
      (∀ b, Val.geB b cutoff = false → Val.ltB b cutoff = true) →
      ∀ x, onChain st' x r → x = r ∨ Passed st' cutoff x := by
  intro fuel
  induction fuel with
  | zero =>
    intro st stack st' r h
    exact absurd h (by simp [pruneLoop])
  | succ fuel ih =>
    intro st stack st' r h hro hcov hcut
    cases stack with
    | nil =>
      unfold pruneLoop at h
      injection h with h
      subst h
      intro x hx
      rcases hcov x hx with hr | hp | ⟨j, hj, _⟩
      · exact Or.inl hr
      · exact Or.inr hp
      · exact absurd hj (by simp)
    | cons i rest =>
      unfold pruneLoop at h
      obtain ⟨⟨st1, b⟩, hnb, h⟩ := exceptOk_of_okBind h
      dsimp only at h
      have hnbv := nodeBound_vparent hnb
      have hnbps := nodeBound_pruneStep hnb
      have hro1 : RootOk st1 r := RootOk.monoR hnbps hro
      obtain ⟨rd1, hgr1, hpr1⟩ := hro1
      have hvr1 : vparent st1 r = none := vparent_none_of_parent_none hgr1 hpr1
      by_cases hge : Val.geB b cutoff = true
      · rw [if_pos hge] at h
        obtain ⟨st2, hdel, h⟩ := exceptOk_of_okBind h
        have hdelps := delete_pruneStep hdel
        have hag2 := hdelps.1
        refine ih st2 rest st' r h (RootOk.monoR hdelps ⟨rd1, hgr1, hpr1⟩) ?_ hcut
        intro x hx
        obtain ⟨k2, hk2⟩ := hx
        have hk1 : vpIter st1 k2 x = some r := by
          rw [← vpIter_agree hag2 hk2 k2 (le_refl k2)]
          exact hk2
        have hkst : vpIter st k2 x = some r := by
          rw [← vpIter_congr hnbv k2 x]
          exact hk1
        rcases hcov x ⟨k2, hkst⟩ with hr | hp | ⟨j, hj, t, htj⟩
        · exact Or.inl hr
        · exact Or.inr (Or.inl ((hp.monoP hnbps).monoP hdelps))
        · have htj1 : vpIter st1 t x = some j := by
            rw [vpIter_congr hnbv t x]
            exact htj
          obtain ⟨hle, ht2⟩ := onChain_transfer hag2 hvr1 hk2 htj1
          rcases List.mem_cons.mp hj with rfl | hjr
          · have hir : onChain st2 j r := by
              refine ⟨k2 - t, ?_⟩
              have hsplit : k2 = t + (k2 - t) := by omega
              rw [hsplit, vpIter_add, ht2, Option.some_bind] at hk2
              exact hk2
            have hjr2 : j = r := delete_detach hdel hgr1 hpr1 hir
            subst hjr2
            obtain ⟨rd2, hgr2, hch2⟩ := delete_root_childless hgr1 hpr1 hdel
            exact Or.inl (onChain_end_childless hgr2 hch2 ⟨k2, hk2⟩)
          · exact Or.inr (Or.inr ⟨j, hjr, t, ht2⟩)
      · rw [if_neg hge] at h
        cases hgi : st1.get? i with
        | none => rw [hgi] at h; exact absurd h (by simp)
        | some d =>
          rw [hgi] at h
          dsimp only at h
          refine ih st1 (d.children.reverse ++ rest) st' r h ⟨rd1, hgr1, hpr1⟩ ?_ hcut
          intro x hx
          obtain ⟨k1, hk1⟩ := hx
          have hkst : vpIter st k1 x = some r := by
            rw [← vpIter_congr hnbv k1 x]
            exact hk1
          rcases hcov x ⟨k1, hkst⟩ with hr | hp | ⟨j, hj, t, htj⟩
          · exact Or.inl hr
          · exact Or.inr (Or.inl (hp.monoP hnbps))
          · have htj1 : vpIter st1 t x = some j := by
              rw [vpIter_congr hnbv t x]
              exact htj
            rcases List.mem_cons.mp hj with rfl | hjr
            · cases t with
              | zero =>
                have hxj : x = j := by injection htj1 with he
                subst hxj
                obtain ⟨d', hg', hc'⟩ := nodeBound_cached hnb
                refine Or.inr (Or.inl ⟨d', b, hg', hc', ?_⟩)
                exact hcut b (by cases hb : Val.geB b cutoff with
                  | true => exact absurd hb hge
                  | false => rfl)
              | succ t =>
                obtain ⟨y, hy, hvy⟩ := vpIter_last_step htj1
                obtain ⟨yd, qd, hgy, hpy, hgq, hym⟩ := vparent_some hvy
                have hqd : qd = d := by
                  have := hgq.symm.trans hgi
                  injection this with he
                refine Or.inr (Or.inr ⟨y, ?_, t, hy⟩)
                apply List.mem_append_left
                rw [List.mem_reverse]
                rw [← hqd]
                exact hym
            · exact Or.inr (Or.inr ⟨j, List.mem_append_right _ hjr, t, htj1⟩)

/-- Soundness of `TreeNode.prune(cutoff)` called on a parentless root: if the
sweep completes, every node still on a verified parent chain to the root,
except possibly the root itself, has a memoized bound strictly below the
cutoff. -/
theorem prune_sound {ctx : Ctx S A} {st : Store S A} {r : Nat} {q : ExtQ}
    {fuel : Nat} {st' : Store S A}
    (hrun : prune ctx st r (Val.real q) fuel = .ok st') (hro : RootOk st r) :
    ∀ x, onChain st' x r → x = r ∨ Passed st' (Val.real q) x := by
  unfold prune at hrun
  refine pruneLoop_sound fuel st [r] st' r hrun hro ?_ ?_
  · intro x hx
    exact Or.inr (Or.inr ⟨r, by simp, hx⟩)
  · intro b hb
    exact Val.ltB_of_not_geB hb

/-- The pruning cutoff read by `expand`: the value of the best solution in
the overall tracker of the node's root. -/
def cutoffOf (st : Store S A) (rootId : Nat) : Option Val :=
  (st.get? rootId).map fun rd => rd.stats.overall.best.value

theorem Expansion.next_okE {ctx : Ctx S A} {e : Expansion S A} {a : A} {s : S}
    {e2 : Expansion S A} (h : Expansion.next ctx e = .ok (a, s, e2)) :
    e2 = e.advance ∧ e.isStarted = true ∧ e.isFinished = false ∧
      e.nextAction = some a := by
  unfold Expansion.next at h
  by_cases hs : e.isStarted
  · rw [if_neg (by simp [hs])] at h
    by_cases hf : e.isFinished
    · rw [if_pos hf] at h
      exact absurd h (by simp)
    · rw [if_neg hf] at h
      cases hna : e.nextAction with
      | none => rw [hna] at h; exact absurd h (by simp)
      | some a0 =>
        rw [hna] at h
        injection h with h
        injection h with h1 h
        injection h with h2 h3
        subst h1
        exact ⟨h3.symm, by simp [hs], by simp [hf], by simp [hna]⟩
  · rw [if_pos (by simp [hs])] at h
    exact absurd h (by simp)

theorem Expansion.advance_isStarted2 (e : Expansion S A) :
    e.advance.isStarted = e.isStarted := by
  unfold Expansion.advance
  cases e.remaining <;> rfl

theorem addChild_okE {st : Store S A} {p c : Nat} {st3 : Store S A}
    (h : addChild st p c = .ok st3) :
    ∃ pd cd, st.get? p = some pd ∧ st.get? c = some cd ∧
      cd.ancestors = [] ∧ cd.children = [] ∧
      st3 = (st.set p { pd with children := pd.children ++ [c] }).set c
        { cd with ancestors := p :: pd.ancestors, parent := some p,
                  root := pd.root, depth := pd.depth + 1 } := by
  unfold addChild at h
  cases hgp : st.get? p with
  | none => rw [hgp] at h; cases hgc : st.get? c <;> rw [hgc] at h <;> exact absurd h (by simp)
  | some pd =>
    cases hgc : st.get? c with
    | none => rw [hgp, hgc] at h; exact absurd h (by simp)
    | some cd =>
      rw [hgp, hgc] at h
      dsimp only at h
      split at h
      · exact absurd h (by simp)
      · next hcond =>
        injection h with h
        push_neg at hcond
        have ha : cd.ancestors = [] := by
          have := hcond.1
          cases hx : cd.ancestors with
          | nil => rfl
          | cons z zs => rw [hx] at this; simp at this
        have hc2 : cd.children = [] := by
          have := hcond.2
          cases hx : cd.children with
          | nil => rfl
          | cons z zs => rw [hx] at this; simp at this
        exact ⟨pd, cd, rfl, rfl, ha, hc2, h.symm⟩

theorem nodeBound_keysOk {ctx : Ctx S A} {st : Store S A} {i : Nat}
    {stb : Store S A} {b : Val} (h : nodeBound ctx st i = .ok (stb, b))
    (hk : st.KeysOk) : stb.KeysOk := by
  unfold nodeBound at h
  cases hg : st.get? i with
  | none => rw [hg] at h; exact absurd h (by simp)
  | some d =>
    rw [hg] at h
    dsimp only at h
    cases hc : d.cachedBound with
    | some b0 =>
      rw [hc] at h
      injection h with h
      injection h with h1 h2
      subst h1
      exact hk
    | none =>
      rw [hc] at h
      cases hs : d.state with
      | none => rw [hs] at h; exact absurd h (by simp)
      | some s =>
        rw [hs] at h
        injection h with h
        injection h with h1 h2
        rw [← h1]
        exact Store.keysOk_set _ _ _ hk

set_option maxHeartbeats 1000000

theorem expandLoop_spec {ctx : Ctx S A} {pruning : Bool} {selfId rootId : Nat} :
    ∀ (budget : Nat) (st : Store S A) (acc : List Nat) (st2 : Store S A)
      (ys : List Nat),
      expandLoop ctx pruning selfId rootId st budget acc = .ok (st2, ys) →
      st.KeysOk →
      ∀ d, st.get? selfId = some d →
      ∃ suffix d2,
        ys = acc ++ suffix ∧
        suffix.length ≤ budget ∧
        st2.get? selfId = some d2 ∧
        d2.children = d.children ++ suffix ∧
        d2.expansion.isStarted = d.expansion.isStarted ∧
        d2.parent = d.parent ∧ d2.root = d.root ∧ d2.stats = d.stats ∧
        d2.state = d.state ∧ d2.cachedBound = d.cachedBound ∧
        st2.KeysOk ∧
        (∀ y yd, y ≠ selfId → st.get? y = some yd → st2.get? y = some yd) ∧
        (∀ c ∈ suffix, selfId < c ∧ ∃ cd, st2.get? c = some cd ∧
          cd.parent = some selfId ∧
          (pruning = true → ∀ q, cutoffOf st rootId = some (Val.real q) →
            ∃ bc, cd.cachedBound = some bc ∧ Val.ltB bc (Val.real q) = true)) ∧
        (pruning = false → d2.expansion.isFinished = false →
          suffix.length = budget) := by
  intro budget
  induction budget with
  | zero =>
    intro st acc st2 ys h hk d hg
    unfold expandLoop at h
    injection h with h
    injection h with h1 h2
    subst h1
    subst h2
    exact ⟨[], d, by simp, by simp, hg, by simp, rfl, rfl, rfl, rfl, rfl, rfl, hk,
      fun y yd _ hy => hy, by simp, by simp⟩
  | succ budget ih =>
    intro st acc st2 ys h hk d hg
    unfold expandLoop at h
    rw [hg] at h
    dsimp only at h
    by_cases hfin : d.expansion.isFinished = true
    · rw [if_pos hfin] at h
      injection h with h
      injection h with h1 h2
      subst h1
      subst h2
      refine ⟨[], d, by simp, by simp, hg, by simp, rfl, rfl, rfl, rfl, rfl, rfl, hk,
        fun y yd _ hy => hy, by simp, ?_⟩
      intro _ hnf
      rw [hfin] at hnf
      exact absurd hnf (by simp)
    · rw [if_neg hfin] at h
      obtain ⟨⟨a, s, e2⟩, hnext, h⟩ := exceptOk_of_okBind h
      dsimp only at h
      set stD : NodeData S A := { d with expansion := e2 } with hstD
      set st1 : Store S A := st.set selfId stD with hst1
      set cid : Nat := st1.nextId with hciddef
      set ndc : NodeData S A := newNodeData s (some a) cid with hndc
      set stA : Store S A := (st1.alloc ndc).1 with hstA
      have halloc2 : (st1.alloc ndc).2 = cid := rfl
      rw [halloc2] at h
      have hcid : cid = st.nextId := rfl
      have hlt : selfId < st.nextId := Store.get?_lt_nextId hk hg
      have hselfne : selfId ≠ cid := by omega
      have hself1 : st1.get? selfId = some stD := Store.get?_set_eq hg stD
      have hk1 : st1.KeysOk := Store.keysOk_set st selfId stD hk
      have hkA : stA.KeysOk := Store.keysOk_alloc st1 ndc hk1
      have hselfA : stA.get? selfId = some stD := Store.get?_alloc_old hself1 ndc
      have hcidA : stA.get? cid = some ndc := Store.get?_alloc_fresh hk1 ndc
      have hOA : ∀ y yd, y ≠ selfId → st.get? y = some yd → stA.get? y = some yd := by
        intro y yd hy hgy
        exact Store.get?_alloc_old (by rw [Store.get?_set_ne hy stD]; exact hgy) ndc
      have hexne : ∀ y yd, st.get? y = some yd → y ≠ cid := by
        intro y yd hgy
        have := Store.get?_lt_nextId hk hgy
        omega
      have hstarted : e2.isStarted = d.expansion.isStarted := by
        obtain ⟨he2, _, _, _⟩ := Expansion.next_okE hnext
        rw [he2]
        exact Expansion.advance_isStarted2 d.expansion
      cases hgr : stA.get? rootId with
      | none => rw [hgr] at h; exact absurd h (by simp)
      | some rd =>
        rw [hgr] at h
        dsimp only at h
        have hcutrd : ∀ v, cutoffOf st rootId = some v →
            v = rd.stats.overall.best.value := by
          intro v hv
          unfold cutoffOf at hv
          cases hgrs : st.get? rootId with
          | none => rw [hgrs] at hv; exact absurd hv (by simp)
          | some rdSt =>
            rw [hgrs] at hv
            injection hv with hv
            by_cases hrs : rootId = selfId
            · subst hrs
              have h1 : rdSt = d := by
                have := hgrs.symm.trans hg
                injection this with he
              have h2 : rd = stD := by
                have := hgr.symm.trans hselfA
                injection this with he
              rw [← hv, h1, h2]
            · have : stA.get? rootId = some rdSt := hOA rootId rdSt hrs hgrs
              have h2 : rd = rdSt := by
                have := hgr.symm.trans this
                injection this with he
              rw [← hv, h2]
        have linkCase : ∀ (stPre st3 : Store S A),
            stPre.KeysOk →
            stPre.get? selfId = some stD →
            (∀ y yd, y ≠ selfId → st.get? y = some yd → stPre.get? y = some yd) →
            (pruning = true → ∀ q, cutoffOf st rootId = some (Val.real q) →
              ∃ cdP bc, stPre.get? cid = some cdP ∧ cdP.cachedBound = some bc ∧
                Val.ltB bc (Val.real q) = true) →
            addChild stPre selfId cid = .ok st3 →
            expandLoop ctx pruning selfId rootId st3 budget (acc ++ [cid]) =
              .ok (st2, ys) →
            ∃ suffix d2,
              ys = acc ++ suffix ∧
              suffix.length ≤ budget + 1 ∧
              st2.get? selfId = some d2 ∧
              d2.children = d.children ++ suffix ∧
              d2.expansion.isStarted = d.expansion.isStarted ∧
              d2.parent = d.parent ∧ d2.root = d.root ∧ d2.stats = d.stats ∧
              d2.state = d.state ∧ d2.cachedBound = d.cachedBound ∧
              st2.KeysOk ∧
              (∀ y yd, y ≠ selfId → st.get? y = some yd → st2.get? y = some yd) ∧
              (∀ c ∈ suffix, selfId < c ∧ ∃ cd, st2.get? c = some cd ∧
                cd.parent = some selfId ∧
                (pruning = true → ∀ q, cutoffOf st rootId = some (Val.real q) →
                  ∃ bc, cd.cachedBound = some bc ∧ Val.ltB bc (Val.real q) = true)) ∧
              (pruning = false → d2.expansion.isFinished = false →
                suffix.length = budget + 1) := by
          intro stPre st3 hkPre hPreSelf hOpre hbnd hadd hrec
          obtain ⟨pd2, cd2, hgp2, hgc2, ha2, hc2, hst3eq⟩ := addChild_okE hadd
          have hpd2 : pd2 = stD := by
            have := hgp2.symm.trans hPreSelf
            injection this with he
          subst hpd2
          have h3self : st3.get? selfId =
              some { stD with children := stD.children ++ [cid] } := by
            rw [hst3eq]
            rw [Store.get?_set_ne hselfne _]
            exact Store.get?_set_eq hgp2 _
          have h3cid : st3.get? cid = some
              { cd2 with
                ancestors := selfId :: stD.ancestors, parent := some selfId,
                root := stD.root, depth := stD.depth + 1 } := by
            rw [hst3eq]
            apply Store.get?_set_eq
            rw [Store.get?_set_ne (Ne.symm hselfne) _]
            exact hgc2
          have h3other : ∀ y yd, y ≠ selfId → y ≠ cid →
              stPre.get? y = some yd → st3.get? y = some yd := by
            intro y yd hy1 hy2 hgy
            rw [hst3eq, Store.get?_set_ne hy2 _, Store.get?_set_ne hy1 _]
            exact hgy
          have h3k : st3.KeysOk := by
            rw [hst3eq]
            exact Store.keysOk_set _ _ _ (Store.keysOk_set _ _ _ hkPre)
          obtain ⟨suffix1, d2, hys, hlen, hself2, hch2, hstart2, hpar2, hroot2,
            hstats2, hstate2, hcb2, hk2, hO2, hmem2, hcount2⟩ :=
            ih st3 (acc ++ [cid]) st2 ys hrec h3k _ h3self
          have hcuttrans : ∀ q, cutoffOf st rootId = some (Val.real q) →
              cutoffOf st3 rootId = some (Val.real q) := by
            intro q hq
            unfold cutoffOf at hq ⊢
            cases hgrs : st.get? rootId with
            | none => rw [hgrs] at hq; exact absurd hq (by simp)
            | some rdSt =>
              rw [hgrs] at hq
              injection hq with hq
              by_cases hrs : rootId = selfId
              · subst hrs
                rw [h3self]
                have h1 : rdSt = d := by
                  have := hgrs.symm.trans hg
                  injection this with he
                subst h1
                simp only [Option.map_some']
                rw [← hq]
              · have hrdcid : rootId ≠ cid := hexne rootId rdSt hgrs
                have : st3.get? rootId = some rdSt :=
                  h3other rootId rdSt hrs hrdcid (hOpre rootId rdSt hrs hgrs)
                rw [this]
                simp only [Option.map_some']
                rw [← hq]
          refine ⟨cid :: suffix1, d2, ?_, ?_, hself2, ?_, ?_, ?_, ?_, ?_, ?_, ?_,
            hk2, ?_, ?_, ?_⟩
          · rw [hys]; simp
          · simp only [List.length_cons]; omega
          · rw [hch2]
            simp only
            simp [hstD]
          · rw [hstart2]
            simp only
            exact hstarted
          · rw [hpar2]
          · rw [hroot2]
          · rw [hstats2]
          · rw [hstate2]
          · rw [hcb2]
          · intro y yd hy hgy
            have hycid : y ≠ cid := hexne y yd hgy
            exact hO2 y yd hy (h3other y yd hy hycid (hOpre y yd hy hgy))
          · intro c hc
            rcases List.mem_cons.mp hc with rfl | hcs
            · refine ⟨by omega, ?_⟩
              have hst2cid := hO2 cid _ (Ne.symm hselfne) h3cid
              refine ⟨_, hst2cid, rfl, ?_⟩
              intro hpt q hq
              obtain ⟨cdP, bc, hgcdP, hcbP, hltP⟩ := hbnd hpt q hq
              have : cdP = cd2 := by
                have := hgcdP.symm.trans hgc2
                injection this with he
              subst this
              exact ⟨bc, hcbP, hltP⟩
            · obtain ⟨hlt2, cd, hgcd, hpcd, hbd⟩ := hmem2 c hcs
              refine ⟨hlt2, cd, hgcd, hpcd, ?_⟩
              intro hpt q hq
              exact hbd hpt q (hcuttrans q hq)
          · intro hpf hnf
            simp only [List.length_cons]
            rw [hcount2 hpf hnf]
        by_cases hp : pruning = true
        · rw [if_neg (by simp [hp])] at h
          cases hcut : rd.stats.overall.best.value with
          | infeasible w =>
            rw [hcut] at h
            dsimp only at h
            obtain ⟨st3, hadd, hrec⟩ := exceptOk_of_okBind h
            exact linkCase stA st3 hkA hselfA hOA
              (by
                intro _ q hq
                have := hcutrd _ hq
                rw [hcut] at this
                exact absurd this (by simp))
              hadd hrec
          | real q0 =>
            rw [hcut] at h
            dsimp only at h
            obtain ⟨⟨rbst, bv⟩, hnb, h⟩ := exceptOk_of_okBind h
            dsimp only at h
            obtain ⟨hnbo, dcid, hgdc, hgdc2, hcdc⟩ := nodeBound_ok hnb
            have hdcid : dcid = ndc := by
              have := hgdc.symm.trans hcidA
              injection this with he
            subst hdcid
            have hkPre : rbst.KeysOk := nodeBound_keysOk hnb hkA
            have hselfPre : rbst.get? selfId = some stD := by
              rw [hnbo selfId hselfne]
              exact hselfA
            have hOpre3 : ∀ y yd, y ≠ selfId → st.get? y = some yd →
                rbst.get? y = some yd := by
              intro y yd hy hgy
              rw [hnbo y (hexne y yd hgy)]
              exact hOA y yd hy hgy
            by_cases hltb : Val.ltB bv (Val.real q0) = true
            · rw [if_pos hltb] at h
              obtain ⟨st3, hadd, hrec⟩ := exceptOk_of_okBind h
              refine linkCase rbst st3 hkPre hselfPre hOpre3 ?_ hadd hrec
              intro hpt q hq
              have hqq : Val.real q = Val.real q0 := by
                have := hcutrd _ hq
                rw [hcut] at this
                exact this
              injection hqq with hqq
              subst hqq
              exact ⟨{ ndc with cachedBound := some bv }, bv, hgdc2, rfl, hltb⟩
            · rw [if_neg hltb] at h
              obtain ⟨suffix1, d2, hys, hlen, hself2, hch2, hstart2, hpar2, hroot2,
                hstats2, hstate2, hcb2, hk2, hO2, hmem2, hcount2⟩ :=
                ih rbst acc st2 ys h hkPre stD hselfPre
              have hcuttransD : ∀ q, cutoffOf st rootId = some (Val.real q) →
                  cutoffOf rbst rootId = some (Val.real q) := by
                intro q hq
                unfold cutoffOf at hq ⊢
                cases hgrs : st.get? rootId with
                | none => rw [hgrs] at hq; exact absurd hq (by simp)
                | some rdSt =>
                  rw [hgrs] at hq
                  injection hq with hq
                  by_cases hrs : rootId = selfId
                  · subst hrs
                    rw [hselfPre]
                    have h1 : rdSt = d := by
                      have := hgrs.symm.trans hg
                      injection this with he
                    subst h1
                    simp only [Option.map_some']
                    rw [← hq]
                  · rw [hOpre3 rootId rdSt hrs hgrs]
                    simp only [Option.map_some']
                    rw [← hq]
              refine ⟨suffix1, d2, hys, by omega, hself2, hch2, ?_, hpar2, hroot2,
                hstats2, hstate2, hcb2, hk2, ?_, ?_, ?_⟩
              · rw [hstart2]
                exact hstarted
              · intro y yd hy hgy
                exact hO2 y yd hy (hOpre3 y yd hy hgy)
              · intro c hc
                obtain ⟨hlt2, cd, hgcd, hpcd, hbd⟩ := hmem2 c hc
                refine ⟨hlt2, cd, hgcd, hpcd, ?_⟩
                intro hpt q hq
                exact hbd hpt q (hcuttransD q hq)
              · intro hpf
                rw [hp] at hpf
                exact absurd hpf (by simp)
        · have hpf : pruning = false := by
            cases hpv : pruning with
            | true => exact absurd hpv hp
            | false => rfl
          rw [if_pos (by rw [hpf]; rfl)] at h
          obtain ⟨st3, hadd, hrec⟩ := exceptOk_of_okBind h
          refine linkCase stA st3 hkA hselfA hOA ?_ hadd hrec
          intro hpt
          rw [hpf] at hpt
          exact absurd hpt (by simp)

theorem removeChild_preserve_fields {st st' : Store S A} {p c i : Nat}
    {d : NodeData S A} (h : removeChild st p c = .ok st')
    (hg : st.get? i = some d) (hip : i ≠ p) :
    ∃ d', st'.get? i = some d' ∧ d'.children = d.children ∧
      d'.expansion = d.expansion ∧ d'.state = d.state := by
  by_cases hic : i = c
  · subst hic
    obtain ⟨cd, hgc, hgc'⟩ := removeChild_get_c h
    have he : cd = d := by rw [hg] at hgc; injection hgc with he; exact he.symm
    subst he
    exact ⟨_, hgc', rfl, rfl, rfl⟩
  · refine ⟨d, ?_, rfl, rfl, rfl⟩
    rw [removeChild_get_other h hip hic]
    exact hg

theorem delete_self_childless {st st' : Store S A} {i : Nat} {d : NodeData S A}
    (hg : st.get? i = some d) (hch : d.children = [])
    (h : delete st i = .ok st') :
    ∃ d', st'.get? i = some d' ∧ d'.children = [] ∧
      d'.expansion = d.expansion ∧ d'.state = d.state := by
  obtain ⟨d0, nd, hg0, hgn, hbr⟩ := delete_ok h
  rw [hg] at hg0
  injection hg0 with he
  subst he
  rcases hbr with ⟨hpn, hroot, hlen, hbr2, _⟩ | ⟨p, st1, pd1, hpn, hrc, hg1, hnex, hst'⟩
  · rcases hbr2 with ⟨hchn, hst'⟩ | ⟨c, st1, hchn, hrc, hst'⟩
    · subst hst'
      obtain ⟨d', hg', _, _, hch', hexp', hstate', _, _⟩ :=
        (refreshNode_statsOnly st _).cached_eq hg
      exact ⟨d', hg', by rw [hch', hch], hexp', hstate'⟩
    · have hin : i ≠ deleteWalk st i d.ancestors.length := by
        intro he
        rw [← he] at hgn
        rw [hg] at hgn
        injection hgn with hgn
        rw [← hgn] at hchn
        rw [hch] at hchn
        exact absurd hchn (by simp)
      subst hst'
      obtain ⟨d1', hg1', hch1', hexp1', hstate1'⟩ :=
        removeChild_preserve_fields hrc hg hin
      obtain ⟨d', hg', _, _, hch', hexp', hstate', _, _⟩ :=
        (refreshNode_statsOnly st1 _).cached_eq hg1'
      exact ⟨d', hg', by rw [hch', hch1', hch], by rw [hexp', hexp1'],
        by rw [hstate', hstate1']⟩
  · have hip : i ≠ p := by
      intro he
      subst he
      obtain ⟨pd, cd, hgp, _, _, hcm, _⟩ := removeChild_ok hrc
      have he2 : pd = d := by rw [hg] at hgp; injection hgp with he2; exact he2.symm
      subst he2
      rw [hch] at hcm
      exact absurd hcm (by simp)
    subst hst'
    obtain ⟨d1', hg1', hch1', hexp1', hstate1'⟩ :=
      removeChild_preserve_fields hrc hg hip
    obtain ⟨d', hg', _, _, hch', hexp', hstate', _, _⟩ :=
      (refreshAncestors_statsOnly st1 _).cached_eq hg1'
    exact ⟨d', hg', by rw [hch', hch1', hch], by rw [hexp', hexp1'],
      by rw [hstate', hstate1']⟩

theorem cutoffOf_set_stats {st : Store S A} {i j : Nat} {d d' : NodeData S A}
    (hg : st.get? i = some d) (hs : d'.stats = d.stats) :
    cutoffOf (st.set i d') j = cutoffOf st j := by
  unfold cutoffOf
  by_cases hj : j = i
  · subst hj
    rw [Store.get?_set_eq hg _, hg]
    simp [hs]
  · rw [Store.get?_set_ne hj _]

theorem cutoffOf_addChild {st st3 : Store S A} {p c j : Nat}
    (h : addChild st p c = .ok st3) : cutoffOf st3 j = cutoffOf st j := by
  obtain ⟨pd, cd, hgp, hgc, hanc, hch, rfl⟩ := addChild_okE h
  by_cases hcp : c = p
  · subst hcp
    have he : pd = cd := by rw [hgp] at hgc; injection hgc with he
    subst he
    have h1 := Store.get?_set_eq hgp
      ({ pd with children := pd.children ++ [c] } : NodeData S A)
    refine (cutoffOf_set_stats h1 ?_).trans (cutoffOf_set_stats hgp rfl)
    rfl
  · have h1 : (st.set p { pd with children := pd.children ++ [c] }).get? c
        = some cd := by
      rw [Store.get?_set_ne hcp _]
      exact hgc
    refine (cutoffOf_set_stats h1 ?_).trans (cutoffOf_set_stats hgp rfl)
    rfl

theorem expandLoop_full {ctx : Ctx S A} {selfId rootId : Nat} {v : ExtQ} :
    ∀ (budget : Nat) (st : Store S A) (acc : List Nat) (st2 : Store S A)
      (ys : List Nat),
      expandLoop ctx true selfId rootId st budget acc = .ok (st2, ys) →
      st.KeysOk →
      cutoffOf st rootId = some (Val.infeasible v) →
      ∀ d2, st2.get? selfId = some d2 → d2.expansion.isFinished = false →
      ys.length = acc.length + budget := by
  intro budget
  induction budget with
  | zero =>
    intro st acc st2 ys h hk hcut d2 hg2 hnf
    unfold expandLoop at h
    injection h with h
    injection h with h1 h2
    subst h1
    subst h2
    simp
  | succ budget ih =>
    intro st acc st2 ys h hk hcut d2 hg2 hnf
    unfold expandLoop at h
    cases hg : st.get? selfId with
    | none => rw [hg] at h; exact absurd h (by simp)
    | some d =>
      rw [hg] at h
      dsimp only at h
      by_cases hfin : d.expansion.isFinished = true
      · rw [if_pos hfin] at h
        injection h with h
        injection h with h1 h2
        subst h1
        subst h2
        rw [hg] at hg2
        injection hg2 with he
        rw [← he] at hnf
        rw [hfin] at hnf
        exact absurd hnf (by simp)
      · rw [if_neg hfin] at h
        obtain ⟨⟨a, s, e2⟩, hnext, h⟩ := exceptOk_of_okBind h
        dsimp only at h
        set stD : NodeData S A := { d with expansion := e2 } with hstD
        set st1 : Store S A := st.set selfId stD with hst1
        set cid : Nat := st1.nextId with hciddef
        set ndc : NodeData S A := newNodeData s (some a) cid with hndc
        set stA : Store S A := (st1.alloc ndc).1 with hstA
        have halloc2 : (st1.alloc ndc).2 = cid := rfl
        rw [halloc2] at h
        have hk1 : st1.KeysOk := Store.keysOk_set st selfId stD hk
        have hkA : stA.KeysOk := Store.keysOk_alloc st1 ndc hk1
        have hsD : stD.stats = d.stats := rfl
        have hcut1 : cutoffOf st1 rootId = some (Val.infeasible v) := by
          rw [hst1, cutoffOf_set_stats hg hsD]
          exact hcut
        have hcutA : cutoffOf stA rootId = some (Val.infeasible v) := by
          unfold cutoffOf at hcut1 ⊢
          cases hgr1 : st1.get? rootId with
          | none => rw [hgr1] at hcut1; exact absurd hcut1 (by simp)
          | some rd1 =>
            rw [hgr1] at hcut1
            rw [hstA, Store.get?_alloc_old hgr1 ndc]
            exact hcut1
        cases hgr : stA.get? rootId with
        | none => rw [hgr] at h; exact absurd h (by simp)
        | some rd =>
          rw [hgr] at h
          dsimp only at h
          have hrdv : rd.stats.overall.best.value = Val.infeasible v := by
            unfold cutoffOf at hcutA
            rw [hgr] at hcutA
            injection hcutA with he
          rw [hrdv] at h
          dsimp only at h
          obtain ⟨st3, hadd, h⟩ := exceptOk_of_okBind h
          have hk3 : st3.KeysOk := by
            obtain ⟨pd, cd, hgp, hgc, _, _, rfl⟩ := addChild_okE hadd
            exact Store.keysOk_set _ _ _ (Store.keysOk_set _ _ _ hkA)
          have hcut3 : cutoffOf st3 rootId = some (Val.infeasible v) := by
            rw [cutoffOf_addChild hadd]
            exact hcutA
          have hlen := ih st3 (acc ++ [cid]) st2 ys h hk3 hcut3 d2 hg2 hnf
          simp at hlen
          omega

theorem expandFinish_spec {ctx : Ctx S A} {pruning : Bool} {i : Nat}
    {st1 : Store S A} {limit : Nat} {st' : Store S A} {ys : List Nat}
    (h : expandFinish ctx pruning i st1 limit = .ok (st', ys))
    (hk : st1.KeysOk) :
    ∃ d1 d', st1.get? i = some d1 ∧ st'.get? i = some d' ∧
      ys.length ≤ limit ∧
      d'.expansion.isStarted = d1.expansion.isStarted ∧
      d'.children = d1.children ++ ys ∧
      (∀ c ∈ ys, i < c ∧ ∃ cd, st'.get? c = some cd ∧ cd.parent = some i ∧
        (pruning = true → ∀ q, cutoffOf st1 d1.root = some (Val.real q) →
          ∃ bc, cd.cachedBound = some bc ∧ Val.ltB bc (Val.real q) = true)) ∧
      (d'.expansion.isFinished = false →
        d'.parent = d1.parent ∧ d'.state = d1.state ∧
        d'.cachedBound = d1.cachedBound) ∧
      (d'.expansion.isFinished = true → d'.children ≠ [] →
        d'.parent = d1.parent ∧ d'.state = none ∧ ∃ b, d'.cachedBound = some b) ∧
      (pruning = false → d'.expansion.isFinished = false → ys.length = limit) ∧
      (pruning = true → (∃ w, cutoffOf st1 d1.root = some (Val.infeasible w)) →
        d'.expansion.isFinished = false → ys.length = limit) ∧
      (d'.expansion.isFinished = true → d'.children = [] → ys = [] ∧
        d1.children = [] ∧
        ∀ r rd, st1.get? r = some rd → rd.parent = none →
          onChain st' i r → i = r) := by
  unfold expandFinish at h
  cases hg1 : st1.get? i with
  | none => rw [hg1] at h; exact absurd h (by simp)
  | some d1 =>
    rw [hg1] at h
    dsimp only at h
    obtain ⟨r, hloop, h⟩ := exceptOk_of_okBind h
    obtain ⟨st2, ysL⟩ := r
    obtain ⟨suffix, d2, hys, hslen, hg2, hch2, hstarted2, hpar2, hroot2, hstats2,
      hstate2, hcb2, hk2, hO, hmem, hfull⟩ :=
      expandLoop_spec limit st1 [] st2 ysL hloop hk d1 hg1
    simp only [List.nil_append] at hys
    subst hys
    rw [hg2] at h
    dsimp only at h
    by_cases hfin : d2.expansion.isFinished = true
    · rw [if_pos hfin] at h
      by_cases hch0 : d2.children.length = 0
      · rw [if_pos hch0] at h
        obtain ⟨st3, hdel, h⟩ := exceptOk_of_okBind h
        injection h with h
        injection h with h1 h2
        subst h1
        subst h2
        have hch2e : d2.children = [] := List.eq_nil_of_length_eq_zero hch0
        have hboth : d1.children = [] ∧ ysL = [] := by
          rw [hch2e] at hch2
          exact ⟨List.append_eq_nil.mp hch2.symm |>.1,
            List.append_eq_nil.mp hch2.symm |>.2⟩
        obtain ⟨hd1ch, hsufe⟩ := hboth
        subst hsufe
        obtain ⟨d', hg', hch', hexp', hstate'⟩ :=
          delete_self_childless hg2 hch2e hdel
        refine ⟨d1, d', rfl, hg', by simp, ?_, ?_, ?_, ?_, ?_, ?_, ?_, ?_⟩
        · rw [hexp']; exact hstarted2
        · rw [hch', hd1ch]; simp
        · intro c hc; exact absurd hc (by simp)
        · intro hnf
          rw [hexp'] at hnf
          exact absurd hfin (by rw [hnf]; simp)
        · intro _ hne
          exact absurd hch' hne
        · intro _ hnf
          rw [hexp'] at hnf
          exact absurd hfin (by rw [hnf]; simp)
        · intro _ _ hnf
          rw [hexp'] at hnf
          exact absurd hfin (by rw [hnf]; simp)
        · intro _ _
          refine ⟨rfl, hd1ch, ?_⟩
          intro r rd hgr hpr hchain
          by_cases hri : r = i
          · exact hri.symm
          · have hgr2 : st2.get? r = some rd := hO r rd hri hgr
            exact delete_detach hdel hgr2 hpr hchain
      · rw [if_neg hch0] at h
        obtain ⟨rb, hnb, h⟩ := exceptOk_of_okBind h
        obtain ⟨stB, bv⟩ := rb
        obtain ⟨hother, dB, hgB, hgB', hcbB⟩ := nodeBound_ok hnb
        have hdB : dB = d2 := by rw [hg2] at hgB; injection hgB with he; exact he.symm
        subst hdB
        rw [hgB'] at h
        dsimp only at h
        injection h with h
        injection h with h1 h2
        subst h1
        subst h2
        refine ⟨d1, _, rfl, Store.get?_set_eq hgB' _, by simpa using hslen,
          ?_, ?_, ?_, ?_, ?_, ?_, ?_, ?_⟩
        · exact hstarted2
        · exact hch2
        · intro c hc
          obtain ⟨hlt, cd, hgc, hcp, hcut⟩ := hmem c hc
          have hci : c ≠ i := fun he => by rw [he] at hlt; exact Nat.lt_irrefl i hlt
          refine ⟨hlt, cd, ?_, hcp, hcut⟩
          rw [Store.get?_set_ne hci _, hother c hci]
          exact hgc
        · intro hnf
          exact absurd hfin (by rw [hnf] at *; simp_all)
        · intro _ _
          exact ⟨hpar2, rfl, bv, rfl⟩
        · intro _ hnf
          exact absurd hfin (by rw [hnf] at *; simp_all)
        · intro _ _ hnf
          exact absurd hfin (by rw [hnf] at *; simp_all)
        · intro _ hche
          exact absurd hche (by
            intro he
            exact hch0 (by rw [he]; rfl))
    · rw [if_neg hfin] at h
      injection h with h
      injection h with h1 h2
      subst h1
      subst h2
      have hfinf : d2.expansion.isFinished = false := by
        cases hx : d2.expansion.isFinished
        · rfl
        · exact absurd hx hfin
      refine ⟨d1, d2, rfl, hg2, by simpa using hslen, hstarted2, hch2, hmem,
        ?_, ?_, ?_, ?_, ?_⟩
      · intro _
        exact ⟨hpar2, hstate2, hcb2⟩
      · intro hf _
        exact absurd hf hfin
      · intro hp _
        simpa using hfull hp hfinf
      · intro hp hw _
        subst hp
        obtain ⟨w, hw⟩ := hw
        simpa using expandLoop_full limit st1 [] st2 ysL hloop hk hw d2 hg2 hfinf
      · intro hf _
        exact absurd hf hfin

theorem Expansion.start_isStarted {ctx : Ctx S A} {e e' : Expansion S A}
    (h : Expansion.start ctx e = .ok e') : e'.isStarted = true := by
  unfold Expansion.start at h
  split at h
  · exact absurd h (by simp)
  · injection h with h
    rw [← h]
    exact Expansion.advance_isStarted2 _

theorem expand_spec {ctx : Ctx S A} {pruning : Bool} {i : Nat} {st : Store S A}
    {limit : Nat} {st' : Store S A} {ys : List Nat}
    (h : expand ctx pruning i st limit = .ok (st', ys)) (hk : st.KeysOk) :
    ∃ d d', st.get? i = some d ∧ st'.get? i = some d' ∧
      ys.length ≤ limit ∧
      d'.expansion.isStarted = true ∧
      d'.children = d.children ++ ys ∧
      (∀ c ∈ ys, i < c ∧ ∃ cd, st'.get? c = some cd ∧ cd.parent = some i ∧
        (pruning = true → ∀ q, cutoffOf st d.root = some (Val.real q) →
          ∃ bc, cd.cachedBound = some bc ∧ Val.ltB bc (Val.real q) = true)) ∧
      (d'.expansion.isFinished = false →
        d'.parent = d.parent ∧ d'.state = d.state ∧
        d'.cachedBound = d.cachedBound) ∧
      (d'.expansion.isFinished = true → d'.children ≠ [] →
        d'.parent = d.parent ∧ d'.state = none ∧ ∃ b, d'.cachedBound = some b) ∧
      (pruning = false → d'.expansion.isFinished = false → ys.length = limit) ∧
      (pruning = true → (∃ w, cutoffOf st d.root = some (Val.infeasible w)) →
        d'.expansion.isFinished = false → ys.length = limit) ∧
      (d'.expansion.isFinished = true → d'.children = [] → ys = [] ∧
        d.children = [] ∧
        ∀ r rd, st.get? r = some rd → rd.parent = none →
          onChain st' i r → i = r) := by
  unfold expand at h
  cases hg0 : st.get? i with
  | none => rw [hg0] at h; exact absurd h (by simp)
  | some d0 =>
    rw [hg0] at h
    dsimp only at h
    rw [← hg0]
    have hmain : ∀ (stS : Store S A) (d1 : NodeData S A),
        stS.get? i = some d1 → stS.KeysOk → d1.expansion.isStarted = true →
        d1.children = d0.children → d1.parent = d0.parent →
        d1.state = d0.state → d1.cachedBound = d0.cachedBound →
        d1.root = d0.root →
        (∀ y yd, y ≠ i → st.get? y = some yd → stS.get? y = some yd) →
        (∀ u, cutoffOf st d0.root = some u →
          cutoffOf stS d1.root = some u) →
        expandFinish ctx pruning i stS limit = .ok (st', ys) →
        ∃ d d', st.get? i = some d ∧ st'.get? i = some d' ∧
          ys.length ≤ limit ∧
          d'.expansion.isStarted = true ∧
          d'.children = d.children ++ ys ∧
          (∀ c ∈ ys, i < c ∧ ∃ cd, st'.get? c = some cd ∧ cd.parent = some i ∧
            (pruning = true → ∀ q, cutoffOf st d.root = some (Val.real q) →
              ∃ bc, cd.cachedBound = some bc ∧ Val.ltB bc (Val.real q) = true)) ∧
          (d'.expansion.isFinished = false →
            d'.parent = d.parent ∧ d'.state = d.state ∧
            d'.cachedBound = d.cachedBound) ∧
          (d'.expansion.isFinished = true → d'.children ≠ [] →
            d'.parent = d.parent ∧ d'.state = none ∧
            ∃ b, d'.cachedBound = some b) ∧
          (pruning = false → d'.expansion.isFinished = false →
            ys.length = limit) ∧
          (pruning = true →
            (∃ w, cutoffOf st d.root = some (Val.infeasible w)) →
            d'.expansion.isFinished = false → ys.length = limit) ∧
          (d'.expansion.isFinished = true → d'.children = [] → ys = [] ∧
            d.children = [] ∧
            ∀ r rd, st.get? r = some rd → rd.parent = none →
              onChain st' i r → i = r) := by
      intro stS d1 hgS hkS hstS hchS hparS hstateS hcbS hrootS hOS hcutS hfin
      obtain ⟨d1', d', hg1', hg', hlen, hstarted, hchC, hmem, hE, hF, hG, hGI,
        hH⟩ := expandFinish_spec hfin hkS
      have hd1 : d1' = d1 := by
        rw [hgS] at hg1'
        injection hg1' with he
        exact he.symm
      subst hd1
      refine ⟨d0, d', hg0, hg', hlen, by rw [hstarted]; exact hstS,
        by rw [hchC, hchS], ?_, ?_, ?_, hG, ?_, ?_⟩
      · intro c hc
        obtain ⟨hlt, cd, hgc, hcp, hcut⟩ := hmem c hc
        refine ⟨hlt, cd, hgc, hcp, ?_⟩
        intro hp q hq
        exact hcut hp q (hcutS _ hq)
      · intro hnf
        obtain ⟨h1, h2, h3⟩ := hE hnf
        exact ⟨by rw [h1, hparS], by rw [h2, hstateS], by rw [h3, hcbS]⟩
      · intro hf hne
        obtain ⟨h1, h2, h3⟩ := hF hf hne
        exact ⟨by rw [h1, hparS], h2, h3⟩
      · intro hp hw hnf
        obtain ⟨w, hw⟩ := hw
        exact hGI hp ⟨w, hcutS _ hw⟩ hnf
      · intro hf hche
        obtain ⟨h1, h2, h3⟩ := hH hf hche
        refine ⟨h1, by rw [← hchS]; exact h2, ?_⟩
        intro r rd hgr hpr hchain
        by_cases hri : r = i
        · subst hri
          have hrd : rd = d0 := by
            rw [hg0] at hgr
            injection hgr with he
            exact he.symm
          subst hrd
          exact h3 r d1' hgS (by rw [hparS, hpr]) hchain
        · exact h3 r rd (hOS r rd hri hgr) hpr hchain
    by_cases hst : d0.expansion.isStarted = true
    · rw [if_pos hst] at h
      obtain ⟨stS, hok, hfin⟩ := exceptOk_of_okBind h
      have he : st = stS := by injection hok with he
      subst he
      exact hmain st d0 hg0 hk hst rfl rfl rfl rfl rfl
        (fun y yd _ hg => hg) (fun q hq => hq) hfin
    · rw [if_neg hst] at h
      by_cases hch : d0.children.length = 0
      · rw [if_pos hch] at h
        obtain ⟨e, hse, h⟩ := exceptOk_of_okBind h
        obtain ⟨stS, hok, hfin⟩ := exceptOk_of_okBind h
        have he : st.set i { d0 with expansion := e } = stS := by
          injection hok with he
        subst he
        refine hmain _ { d0 with expansion := e } (Store.get?_set_eq hg0 _)
          (Store.keysOk_set _ _ _ hk) (Expansion.start_isStarted hse)
          rfl rfl rfl rfl rfl ?_ ?_ hfin
        · intro y yd hyi hg
          rw [Store.get?_set_ne hyi _]
          exact hg
        · intro q hq
          unfold cutoffOf at hq ⊢
          by_cases hri : d0.root = i
          · rw [hri] at hq ⊢
            rw [Store.get?_set_eq hg0 _]
            rw [hg0] at hq
            simpa using hq
          · rw [Store.get?_set_ne hri _]
            exact hq
      · rw [if_neg hch] at h
        exact absurd h (by intro hc; injection hc)

/-- C3: `delete()` first walks upward while the current node has a parent
whose expansion is finished and whose children list is exactly the current
node; when the walk target has no parent (the root case), after the call the
target's children list is empty — its single remaining child, if any, was
detached (parent cleared) — and the target's three trackers are back at the
initial sentinel objects. -/
theorem claim_C3_delete {st st' : Store S A} {i : Nat} {d0 : NodeData S A}
    (hg : st.get? i = some d0) (h : delete st i = .ok st') :
    ClimbsTo st i (deleteWalk st i d0.ancestors.length) ∧
    (∀ nd, st.get? (deleteWalk st i d0.ancestors.length) = some nd →
      nd.parent = none →
      deleteWalk st i d0.ancestors.length = d0.root ∧
      (∃ nd2, st'.get? (deleteWalk st i d0.ancestors.length) = some nd2 ∧
        nd2.children = [] ∧ sentinelStats nd2.stats) ∧
      (∀ c cd, nd.children = [c] → st.get? c = some cd →
        ∃ cd', st'.get? c = some cd' ∧ cd'.parent = none)) := by
  obtain ⟨d0', nd', hg0, hgn, hbr⟩ := delete_ok h
  have he0 : d0 = d0' := by rw [hg] at hg0; injection hg0 with he0
  subst he0
  refine ⟨deleteWalk_climbsTo st _ i, ?_⟩
  intro nd hgnd hpnone
  have hen : nd = nd' := by rw [hgnd] at hgn; injection hgn with hen
  subst hen
  rcases hbr with ⟨hpn, hroot, hlen, hbr2, nd2, hg2, hsent⟩ |
      ⟨p, st1, pd1, hpn, _, _, _, _⟩
  · refine ⟨hroot, ⟨nd2, hg2, ?_, hsent⟩, ?_⟩
    · rcases hbr2 with ⟨hch, hst'⟩ | ⟨c, st1, hch, hrc, hst'⟩
      · subst hst'
        obtain ⟨X, hgX, _, _, hchX, _, _, _, _⟩ :=
          (refreshNode_statsOnly st _).cached_eq hgnd
        have heX : X = nd2 := by rw [hgX] at hg2; injection hg2 with heX
        subst heX
        rw [hchX, hch]
      · subst hst'
        obtain ⟨pd, cd, hgp, hgc, hcp, hcm, hst1⟩ := removeChild_ok hrc
        have hcn : deleteWalk st i d0.ancestors.length ≠ c := by
          intro he
          rw [← he] at hgc
          rw [hgnd] at hgc
          injection hgc with hec
          rw [← hec] at hcp
          rw [hpnone] at hcp
          exact absurd hcp (by simp)
        obtain ⟨pd2, hgp2, hgp2'⟩ := removeChild_get_p hrc hcn
        have hep : pd2 = nd := by rw [hgnd] at hgp2; injection hgp2 with hep; exact hep.symm
        subst hep
        obtain ⟨X, hgX, _, _, hchX, _, _, _, _⟩ :=
          (refreshNode_statsOnly st1 _).cached_eq hgp2'
        have heX : X = nd2 := by rw [hgX] at hg2; injection hg2 with heX
        subst heX
        rw [hchX]
        simp only
        rw [hch]
        simp
    · intro c0 cd0 hch0 hgc0
      rcases hbr2 with ⟨hch, hst'⟩ | ⟨c, st1, hch, hrc, hst'⟩
      · rw [hch] at hch0
        exact absurd hch0 (by simp)
      · have hcc : c = c0 := by
          rw [hch] at hch0
          injection hch0 with hcc
        subst hcc
        subst hst'
        obtain ⟨cd1, hgc1, hgc1'⟩ := removeChild_get_c hrc
        obtain ⟨X, hgX, _, hpX, _, _, _, _, _⟩ :=
          (refreshNode_statsOnly st1 _).cached_eq hgc1'
        exact ⟨X, hgX, by rw [hpX]⟩
  · rw [hpn] at hpnone
    exact absurd hpnone (by simp)

/-- S5 scenario: grandchild 2 under child 1 under root 0; both the root's and
node 1's expansions are finished and each has exactly one child. -/
def C3root : NodeData Nat Nat :=
  { parent := none, children := [1], ancestors := [], root := 0, depth := 0,
    state := none, action := none, stats := Stats.init,
    expansion := ⟨0, none, [], true, true⟩, cachedBound := some (Val.real (ExtQ.fin 1)) }

def C3n1 : NodeData Nat Nat :=
  { parent := some 0, children := [2], ancestors := [0], root := 0, depth := 1,
    state := none, action := some 1, stats := Stats.init,
    expansion := ⟨0, none, [], true, true⟩, cachedBound := none }

def C3n2 : NodeData Nat Nat :=
  { parent := some 1, children := [], ancestors := [1, 0], root := 0, depth := 2,
    state := some 2, action := some 2, stats := Stats.init,
    expansion := Expansion.mkNew 2, cachedBound := none }

def C3st : Store Nat Nat := ⟨[(0, C3root), (1, C3n1), (2, C3n2)], 3⟩

def C3st' : Store Nat Nat :=
  match delete C3st 2 with
  | .ok s => s
  | .error _ => C3st

theorem claim_C3_witness :
    deleteWalk C3st 2 C3n2.ancestors.length = 0 ∧
    ClimbsTo C3st 2 (deleteWalk C3st 2 C3n2.ancestors.length) ∧
    (∃ nd2, C3st'.get? 0 = some nd2 ∧ nd2.children = [] ∧
      sentinelStats nd2.stats) ∧
    (∃ cd', C3st'.get? 1 = some cd' ∧ cd'.parent = none) := by
  have hc := claim_C3_delete (show C3st.get? 2 = some C3n2 from rfl)
    (show delete C3st 2 = .ok C3st' from rfl)
  obtain ⟨hclimb, hroot⟩ := hc
  obtain ⟨hwr, hsent, hdet⟩ := hroot C3root rfl rfl
  exact ⟨rfl, hclimb, hsent, hdet 1 C3n1 rfl rfl⟩

/-- C5: `expand(pruning)` on a node (run to the end of the generator, budget
`EXPANSION_LIMIT`): the expansion ends up started; at most `EXPANSION_LIMIT`
children are yielded, each newly linked (appended to the children list with
its parent reference set); with pruning and a real cutoff every yielded child
has its bound cached strictly below the cutoff; with pruning off, or with an
`Infeasible` cutoff, no candidate is dropped, so an unfinished expansion
yields exactly `EXPANSION_LIMIT` children; if the expansion finished with
children remaining, the node's bound is cached and its state reference is
released; if it finished with no children, nothing was yielded and the node
is detached from any parentless root it does not equal. -/
theorem claim_C5_expand {ctx : Ctx S A} {pruning : Bool} {i : Nat}
    {st : Store S A} {st' : Store S A} {ys : List Nat}
    (h : expand ctx pruning i st EXPANSION_LIMIT = .ok (st', ys))
    (hk : st.KeysOk) :
    ∃ d d', st.get? i = some d ∧ st'.get? i = some d' ∧
      ys.length ≤ EXPANSION_LIMIT ∧
      d'.expansion.isStarted = true ∧
      d'.children = d.children ++ ys ∧
      (∀ c ∈ ys, i < c ∧ ∃ cd, st'.get? c = some cd ∧ cd.parent = some i ∧
        (pruning = true → ∀ q, cutoffOf st d.root = some (Val.real q) →
          ∃ bc, cd.cachedBound = some bc ∧ Val.ltB bc (Val.real q) = true)) ∧
      (d'.expansion.isFinished = false →
        d'.parent = d.parent ∧ d'.state = d.state ∧
        d'.cachedBound = d.cachedBound) ∧
      (d'.expansion.isFinished = true → d'.children ≠ [] →
        d'.parent = d.parent ∧ d'.state = none ∧ ∃ b, d'.cachedBound = some b) ∧
      (pruning = false → d'.expansion.isFinished = false →
        ys.length = EXPANSION_LIMIT) ∧
      (pruning = true → (∃ w, cutoffOf st d.root = some (Val.infeasible w)) →
        d'.expansion.isFinished = false → ys.length = EXPANSION_LIMIT) ∧
      (d'.expansion.isFinished = true → d'.children = [] → ys = [] ∧
        d.children = [] ∧
        ∀ r rd, st.get? r = some rd → rd.parent = none →
          onChain st' i r → i = r) :=
  expand_spec h hk

/-- C5 witness scenario: a lone unstarted root with exactly one action; the
call starts the expansion, links one child, finishes, caches the bound and
releases the state. -/
def C5ctx : Ctx Nat Nat := ⟨id, Nat.add, fun _ => [5], fun _ => Val.real (ExtQ.fin 3)⟩

def C5root : NodeData Nat Nat :=
  { parent := none, children := [], ancestors := [], root := 0, depth := 0,
    state := some 0, action := none, stats := Stats.init,
    expansion := Expansion.mkNew 0, cachedBound := none }

def C5st : Store Nat Nat := ⟨[(0, C5root)], 1⟩

def C5res : Store Nat Nat × List Nat :=
  match expand C5ctx false 0 C5st EXPANSION_LIMIT with
  | .ok r => r
  | .error _ => (C5st, [])

theorem claim_C5_witness :
    C5st.KeysOk ∧ C5res.2.length ≤ EXPANSION_LIMIT ∧
    (∃ d d', C5st.get? 0 = some d ∧ C5res.1.get? 0 = some d' ∧
      d'.expansion.isStarted = true ∧ d'.children = d.children ++ C5res.2) := by
  have hkC5 : C5st.KeysOk := by
    intro kv hm
    rw [show C5st.nodes = [(0, C5root)] from rfl] at hm
    fin_cases hm
    decide
  have hc := claim_C5_expand
    (show expand C5ctx false 0 C5st EXPANSION_LIMIT = .ok (C5res.1, C5res.2)
      from rfl) hkC5
  obtain ⟨d, d', hg, hg', hlen, hstart, hch, -, -, -, -, -, -⟩ := hc
  exact ⟨hkC5, hlen, d, d', hg, hg', hstart, hch⟩

/-- C10 scenario: pruning on, the root's best overall solution is feasible at
0, and the candidate child's bound is 5; the expansion holds two actions so
it does not finish after the first candidate. -/
def C10ctx : Ctx Nat Nat :=
  ⟨id, Nat.add, fun _ => [7, 8], fun _ => Val.real (ExtQ.fin 5)⟩

def C10root : NodeData Nat Nat :=
  { parent := none, children := [1], ancestors := [], root := 0, depth := 0,
    state := some 0, action := none,
    stats := ⟨[], .init, .init,
      ⟨1, ⟨3, Val.real (ExtQ.fin 0), false⟩, ⟨3, Val.real (ExtQ.fin 0), false⟩⟩⟩,
    expansion := ⟨0, none, [], true, true⟩, cachedBound := none }

def C10n1 : NodeData Nat Nat :=
  { parent := some 0, children := [], ancestors := [0], root := 0, depth := 1,
    state := some 1, action := some 1, stats := Stats.init,
    expansion := Expansion.mkNew 1, cachedBound := none }

def C10st : Store Nat Nat := ⟨[(0, C10root), (1, C10n1)], 2⟩

def C10res : Store Nat Nat × List Nat :=
  match expand C10ctx true 1 C10st EXPANSION_LIMIT with
  | .ok r => r
  | .error _ => (C10st, [])

/-- C10: a single `expand(pruning)` call can yield zero children while the
expansion is unfinished and the node stays attached: here the one candidate
allowed by `EXPANSION_LIMIT` is drawn, its bound 5 fails the cutoff 0, it is
dropped without linking, and afterwards the node's expansion is started but
not finished, it has no children, it is still the root's child and still on
the root's chain; nothing was deleted. -/
theorem claim_C10_expand_zero_yield :
    expand C10ctx true 1 C10st EXPANSION_LIMIT = .ok C10res ∧
    C10res.2 = [] ∧
    ((C10res.1.get? 1).map fun d =>
      (d.expansion.isStarted, d.expansion.isFinished, d.parent, d.children))
      = some (true, false, some 0, []) ∧
    ((C10res.1.get? 0).map fun d => d.children) = some [1] ∧
    onChain C10res.1 1 0 :=
  ⟨rfl, rfl, rfl, rfl, 1, rfl⟩

/-- C4 counterexample scenario: a root whose bound equals the cutoff exactly
(5 vs cutoff 5) with a single child. -/
def C4ctx : Ctx Nat Nat :=
  ⟨id, Nat.add, fun _ => [], fun _ => Val.real (ExtQ.fin 5)⟩

def C4root : NodeData Nat Nat :=
  { parent := none, children := [1], ancestors := [], root := 0, depth := 0,
    state := some 0, action := none, stats := Stats.init,
    expansion := ⟨0, none, [], true, true⟩, cachedBound := none }

def C4n1 : NodeData Nat Nat :=
  { parent := some 0, children := [], ancestors := [0], root := 0, depth := 1,
    state := some 1, action := some 1, stats := Stats.init,
    expansion := Expansion.mkNew 1, cachedBound := none }

def C4st : Store Nat Nat := ⟨[(0, C4root), (1, C4n1)], 2⟩

def C4stP : Store Nat Nat :=
  match prune C4ctx C4st 0 (Val.real (ExtQ.fin 5)) 3 with
  | .ok s => s
  | .error _ => C4st

/-- C4 counterexample: `prune(cutoff=5)` on a root whose bound is 5 succeeds,
the root's child is deleted, but the root itself survives attached with its
cached bound equal to the cutoff — not strictly below it — because `delete()`
never detaches a parentless node.  The claim "every node still attached
satisfies bound() < v" therefore fails for the root. -/
theorem claim_C4_counterexample :
    prune C4ctx C4st 0 (Val.real (ExtQ.fin 5)) 3 = .ok C4stP ∧
    onChain C4stP 0 0 ∧
    ((C4stP.get? 0).map fun rd => rd.cachedBound)
      = some (some (Val.real (ExtQ.fin 5))) ∧
    Val.ltB (Val.real (ExtQ.fin 5)) (Val.real (ExtQ.fin 5)) = false :=
  ⟨rfl, ⟨0, rfl⟩, rfl, rfl⟩

/-- C4 (amended): after a successful `prune(cutoff=v)` with a real cutoff on
the root, every node still on the root's chain either is the root itself or
has its cached bound strictly below `v`; and `expand` with pruning on, when
the root's best overall value is the real cutoff `v`, only links children
whose cached bound is strictly below `v`.  The root itself may survive with
bound `≥ v` (see the counterexample), which corrects the universal claim. -/
theorem claim_C4_strict_bound {ctx : Ctx S A} {st stP stE : Store S A}
    {r : Nat} {q : ExtQ} {fuel : Nat} {i limit : Nat} {ys : List Nat}
    (hprune : prune ctx st r (Val.real q) fuel = .ok stP)
    (hro : RootOk st r)
    (hexp : expand ctx true i st limit = .ok (stE, ys))
    (hk : st.KeysOk)
    (hcut : ∀ d, st.get? i = some d → cutoffOf st d.root = some (Val.real q)) :
    (∀ x, onChain stP x r → x = r ∨ Passed stP (Val.real q) x) ∧
    (∀ c ∈ ys, ∃ cd bc, stE.get? c = some cd ∧ cd.cachedBound = some bc ∧
      Val.ltB bc (Val.real q) = true) := by
  refine ⟨prune_sound hprune hro, ?_⟩
  obtain ⟨d, d', hg, hg', hlen, hstart, hch, hmem, hE, hF, hG, hGI, hH⟩ :=
    expand_spec hexp hk
  intro c hc
  obtain ⟨hlt, cd, hgc, hcp, hcut2⟩ := hmem c hc
  obtain ⟨bc, hbc, hlt2⟩ := hcut2 rfl q (hcut d hg)
  exact ⟨cd, bc, hgc, hbc, hlt2⟩

/-- C4 witness scenario: cutoff 10 (the root's best overall value), root and
child bounds cached at 5 and 7, and one expandable action of bound 5. -/
def C4ctx2 : Ctx Nat Nat :=
  ⟨id, Nat.add, fun _ => [7], fun _ => Val.real (ExtQ.fin 5)⟩

def C4root2 : NodeData Nat Nat :=
  { parent := none, children := [1], ancestors := [], root := 0, depth := 0,
    state := some 0, action := none,
    stats := ⟨[], .init, .init,
      ⟨1, ⟨5, Val.real (ExtQ.fin 10), false⟩, ⟨5, Val.real (ExtQ.fin 10), false⟩⟩⟩,
    expansion := ⟨0, none, [], true, true⟩,
    cachedBound := some (Val.real (ExtQ.fin 5)) }

def C4n1b : NodeData Nat Nat :=
  { parent := some 0, children := [], ancestors := [0], root := 0, depth := 1,
    state := some 1, action := some 1, stats := Stats.init,
    expansion := Expansion.mkNew 1, cachedBound := some (Val.real (ExtQ.fin 7)) }

def C4st2 : Store Nat Nat := ⟨[(0, C4root2), (1, C4n1b)], 2⟩

def C4stP2 : Store Nat Nat :=
  match prune C4ctx2 C4st2 0 (Val.real (ExtQ.fin 10)) 3 with
  | .ok s => s
  | .error _ => C4st2

def C4resE : Store Nat Nat × List Nat :=
  match expand C4ctx2 true 1 C4st2 EXPANSION_LIMIT with
  | .ok r => r
  | .error _ => (C4st2, [])

theorem claim_C4_witness :
    ((1 : Nat) = 0 ∨ Passed C4stP2 (Val.real (ExtQ.fin 10)) 1) ∧
    (∃ cd bc, C4resE.1.get? 2 = some cd ∧ cd.cachedBound = some bc ∧
      Val.ltB bc (Val.real (ExtQ.fin 10)) = true) := by
  have hk2 : C4st2.KeysOk := by
    intro kv hm
    rw [show C4st2.nodes = [(0, C4root2), (1, C4n1b)] from rfl] at hm
    fin_cases hm <;> decide
  have hc := claim_C4_strict_bound
    (show prune C4ctx2 C4st2 0 (Val.real (ExtQ.fin 10)) 3 = .ok C4stP2 from rfl)
    ⟨C4root2, rfl, rfl⟩
    (show expand C4ctx2 true 1 C4st2 EXPANSION_LIMIT = .ok (C4resE.1, C4resE.2)
      from rfl)
    hk2
    (by
      intro d hd
      injection hd with hd
      rw [← hd]
      rfl)
  refine ⟨hc.1 1 ⟨1, rfl⟩, ?_⟩
  exact hc.2 2 (by rw [show C4resE.2 = [2] from rfl]; simp)
